import Mathlib

/-!
Verification development for the mailcleaner repository.

The Go sources are shallowly embedded: Go strings become lists of
characters, unsigned 32-bit arithmetic is carried out on Nat with an
explicit reduction modulo 2 ^ 32 where the Go code can overflow, and
time.Time values are abstracted to integers measured in days (the only
date operations the embedded code performs are AddDate(0, 0, -n) and
Before / After comparisons).  Each definition mirrors one Go function or
type, named after it where Lean allows.
-/

namespace Mailcleaner

/-- Go strings are modelled as lists of characters. -/
abbrev Str := List Char

/-- Helper turning a Lean string literal into the list-of-characters model. -/
def str (s : String) : Str := s.data

/-- Model of unicode.ToLower as used by strings.ToLower, on the ASCII range. -/
def goToLower (c : Char) : Char :=
  if 65 ≤ c.toNat ∧ c.toNat ≤ 90 then Char.ofNat (c.toNat + 32) else c

/-- Model of unicode.ToUpper as used by strings.ToUpper, on the ASCII range. -/
def goToUpper (c : Char) : Char :=
  if 97 ≤ c.toNat ∧ c.toNat ≤ 122 then Char.ofNat (c.toNat - 32) else c

/-- Model of unicode.IsSpace on the ASCII range (space, tab, LF, VT, FF, CR). -/
def goIsSpace (c : Char) : Bool :=
  decide (c.toNat = 32 ∨ c.toNat = 9 ∨ c.toNat = 10 ∨ c.toNat = 11 ∨
    c.toNat = 12 ∨ c.toNat = 13)

/-- Decimal digit test, mirroring the character class accepted by strconv.ParseUint. -/
def isDigitCh (c : Char) : Bool := decide (48 ≤ c.toNat ∧ c.toNat ≤ 57)

/-- Model of strings.HasPrefix restricted to what the embedding needs:
one list starting with another, compared character by character. -/
def beginsWith : Str → Str → Bool
  | [], _ => true
  | _ :: _, [] => false
  | a :: p, b :: q => a == b && beginsWith p q

/-- Model of strings.Contains: the needle occurs as a contiguous substring
of the haystack. -/
def containsSub (hay needle : Str) : Bool :=
  match hay with
  | [] => needle.isEmpty
  | _ :: rest => beginsWith needle hay || containsSub rest needle

/-- Model of strings.HasSuffix. -/
def endsWith (s suf : Str) : Bool := beginsWith suf.reverse s.reverse

/-- Model of strings.TrimSuffix: drop the suffix when present, otherwise
return the string unchanged. -/
def removeSuffix (s suf : Str) : Str :=
  if endsWith s suf then (s.reverse.drop suf.length).reverse else s

/-- Model of strings.TrimSpace: drop whitespace from both ends. -/
def trimSpace (s : Str) : Str :=
  ((s.dropWhile goIsSpace).reverse.dropWhile goIsSpace).reverse

/-- Model of strings.EqualFold on the ASCII range: equality up to case. -/
def equalFold (a b : Str) : Bool := a.map goToLower == b.map goToLower

/-- Case-insensitive containment, the combination
strings.Contains(strings.ToLower(hay), strings.ToLower(needle)) used
throughout the rule engine. -/
def containsLower (hay needle : Str) : Bool :=
  containsSub (hay.map goToLower) (needle.map goToLower)

/-- Value of a decimal digit string, most significant digit first. -/
def digitsVal (s : Str) : Nat := s.foldl (fun a c => a * 10 + (c.toNat - 48)) 0

/-- Model of strconv.ParseUint(s, 10, 32): a nonempty all-digit string whose
value fits in 32 bits parses to that value; anything else is an error
(none).  Syntax errors and range errors are collapsed into none because
every caller in the repository only branches on err being nil. -/
def parseUint32 (s : Str) : Option Nat :=
  if s.isEmpty then none
  else if s.all isDigitCh then
    if digitsVal s < 2 ^ 32 then some (digitsVal s) else none
  else none

/-- Embedding of parseSize from internal/rules/engine.go.  The returned
value is the Go expression uint32(val) * multiplier, hence the explicit
reduction modulo 2 ^ 32. -/
def parseSize (s0 : Str) : Option Nat :=
  let s1 := (trimSpace s0).map goToUpper
  let mult : Nat :=
    if endsWith s1 (str "GB") then 1024 * 1024 * 1024
    else if endsWith s1 (str "MB") then 1024 * 1024
    else if endsWith s1 (str "KB") then 1024
    else 1
  let s2 :=
    if endsWith s1 (str "GB") then removeSuffix s1 (str "GB")
    else if endsWith s1 (str "MB") then removeSuffix s1 (str "MB")
    else if endsWith s1 (str "KB") then removeSuffix s1 (str "KB")
    else if endsWith s1 (str "B") then removeSuffix s1 (str "B")
    else s1
  match parseUint32 (trimSpace s2) with
  | none => none
  | some val => some ((val * mult) % 2 ^ 32)

/-- Embedding of config.Conditions (internal/config).  Go strings become
Str, *bool becomes Option Bool, int becomes Int. -/
structure Conditions where
  fromAddr : Str := []
  fromContains : Str := []
  toAddr : Str := []
  toContains : Str := []
  subject : Str := []
  subjectContains : Str := []
  olderThanDays : Int := 0
  newerThanDays : Int := 0
  isRead : Option Bool := none
  isUnread : Option Bool := none
  hasAttachment : Option Bool := none
  sizeLargerThan : Str := []
  deriving Repr, DecidableEq

/-- Embedding of imap.Email (the CLI imap package).  Dates are abstract
integers in day units; Size is the uint32 size in bytes. -/
structure Email where
  uid : Nat := 0
  fromAddr : Str := []
  toAddrs : List Str := []
  subject : Str := []
  date : Int := 0
  flags : List Str := []
  size : Nat := 0
  hasAttachment : Bool := false
  deriving Repr, DecidableEq

/-- Embedding of Email.IsRead: the Seen flag is present. -/
def emailIsRead (e : Email) : Bool := e.flags.any (fun f => f == str "\\Seen")

/-- Embedding of Engine.matchConditions from internal/rules/engine.go.
The chain of early return false statements becomes a chain of
conditionals.  The cutoff time.Now().AddDate(0, 0, -n) becomes now - n in
the abstract day-unit model; Date.After is greater-than and Date.Before
is less-than. -/
def matchConditions (now : Int) (e : Email) (c : Conditions) : Bool :=
  if !c.fromAddr.isEmpty && !equalFold e.fromAddr c.fromAddr then false
  else if !c.fromContains.isEmpty && !containsLower e.fromAddr c.fromContains then false
  else if !c.toAddr.isEmpty && !(e.toAddrs.any (fun t => equalFold t c.toAddr)) then false
  else if !c.toContains.isEmpty && !(e.toAddrs.any (fun t => containsLower t c.toContains)) then false
  else if !c.subject.isEmpty && !equalFold e.subject c.subject then false
  else if !c.subjectContains.isEmpty && !containsLower e.subject c.subjectContains then false
  else if c.olderThanDays > 0 && decide (e.date > now - c.olderThanDays) then false
  else if c.newerThanDays > 0 && decide (e.date < now - c.newerThanDays) then false
  else if (match c.isRead with
           | some b => emailIsRead e != b
           | none => false) then false
  else if (match c.isUnread with
           | some b => emailIsRead e == b
           | none => false) then false
  else if (match c.hasAttachment with
           | some b => e.hasAttachment != b
           | none => false) then false
  else if !c.sizeLargerThan.isEmpty &&
      (match parseSize c.sizeLargerThan with
       | some sz => decide (e.size ≤ sz)
       | none => false) then false
  else true

example : parseSize (str "10MB") = some (10 * 1024 * 1024) := by decide
example : parseSize (str " 50 MB ") = some (50 * 1024 * 1024) := by decide
example : parseSize (str "invalid") = none := by decide
example : parseSize (str "4GB") = some 0 := by decide
example : parseSize (str "1024B") = some 1024 := by decide
example : parseSize (str "100") = some 100 := by decide
example : matchConditions 0 { size := 15 * 1024 * 1024 }
    { sizeLargerThan := str "10MB" } = true := by decide
example : matchConditions 0 { size := 5 * 1024 * 1024 }
    { sizeLargerThan := str "10MB" } = false := by decide
example : matchConditions 0 { size := 5 * 1024 * 1024 }
    { sizeLargerThan := str "invalid" } = true := by decide

/-- C1, counterexample.  The claim states that a condition set whose
size_larger_than string cannot be parsed makes matchConditions return
false regardless of the message size.  On the code the parse error makes
the size predicate a no-op: matchConditions returns true both for a small
and for a large message, refuting the claim at a concrete input. -/
theorem c1_counterexample :
    parseSize (str "invalid") = none ∧
    matchConditions 0 { size := 5 * 1024 * 1024 } { sizeLargerThan := str "invalid" } = true ∧
    matchConditions 0 { size := 15 * 1024 * 1024 } { sizeLargerThan := str "invalid" } = true := by
  decide

/-- C1, amended.  When the size_larger_than string of a condition set
cannot be parsed, the size predicate is ignored rather than treated as
not satisfied: matchConditions behaves exactly as if the size predicate
were absent, for every message and every remaining condition. -/
theorem c1_amended_unparsable_size_ignored (now : Int) (e : Email) (c : Conditions)
    (h : parseSize c.sizeLargerThan = none) :
    matchConditions now e c = matchConditions now e { c with sizeLargerThan := [] } := by
  unfold matchConditions
  rw [h]
  simp

/-- C1, witness for the amended theorem at the concrete unparsable
threshold string. -/
theorem c1_amended_witness :
    matchConditions 0 { size := 5 * 1024 * 1024 } { sizeLargerThan := str "invalid" } =
      matchConditions 0 { size := 5 * 1024 * 1024 }
        { ({ sizeLargerThan := str "invalid" } : Conditions) with sizeLargerThan := [] } :=
  c1_amended_unparsable_size_ignored 0 { size := 5 * 1024 * 1024 }
    { sizeLargerThan := str "invalid" } (by decide)

/-- The go-imap deleted-flag token, imap.DeletedFlag. -/
def DeletedFlag : Str := str "\\Deleted"

/-- Embedding of testserver.MemoryMessage. -/
structure MemoryMessage where
  uid : Nat := 0
  fromAddr : Str := []
  subject : Str := []
  body : Str := []
  date : Int := 0
  flags : List Str := []
  deleted : Bool := false
  deriving Repr, DecidableEq

/-- Embedding of testserver.MemoryMailbox: an ordered message list and the
uint32 next-UID counter (kept as a Nat that is reduced modulo 2 ^ 32
exactly where the Go uint32 increment can wrap). -/
structure MemoryMailbox where
  name : Str
  messages : List MemoryMessage
  uidNext : Nat
  deriving Repr, DecidableEq

/-- Embedding of imap.FlagsOp as consumed by UpdateMessagesFlags. -/
inductive FlagsOp where
  | add
  | remove
  | set
  deriving Repr, DecidableEq

/-- The per-message body of the switch statement in
MemoryMailbox.UpdateMessagesFlags (testserver/server.go).  AddFlags
appends every given flag (setting the soft-delete marker when the flag is
the deleted token); RemoveFlags only clears the soft-delete marker and
leaves the flag list untouched; SetFlags replaces the list and recomputes
the marker from the new list. -/
def applyFlagsOp (op : FlagsOp) (flags : List Str) (m : MemoryMessage) : MemoryMessage :=
  match op with
  | .add =>
      flags.foldl
        (fun acc f =>
          { acc with
            deleted := if f == DeletedFlag then true else acc.deleted
            flags := acc.flags ++ [f] })
        m
  | .remove =>
      flags.foldl
        (fun acc f => if f == DeletedFlag then { acc with deleted := false } else acc)
        m
  | .set =>
      flags.foldl
        (fun acc f => if f == DeletedFlag then { acc with deleted := true } else acc)
        { m with flags := flags, deleted := false }

/-- Inner loop of UpdateMessagesFlags: every message of the list is
visited (soft-deleted ones included), the sequence number used for
matching is the one-based position in the full list, and matched messages
are rewritten by applyFlagsOp.  The selection predicate sel stands for
the seqSet.Contains test. -/
def updateMsgsFrom (uid : Bool) (sel : Nat → Bool) (op : FlagsOp) (flags : List Str) :
    Nat → List MemoryMessage → List MemoryMessage
  | _, [] => []
  | i, m :: rest =>
    let matched := if uid then sel m.uid else sel (i + 1)
    (if matched then applyFlagsOp op flags m else m) ::
      updateMsgsFrom uid sel op flags (i + 1) rest

/-- Embedding of MemoryMailbox.UpdateMessagesFlags. -/
def updateMessagesFlags (uid : Bool) (sel : Nat → Bool) (op : FlagsOp) (flags : List Str)
    (msgs : List MemoryMessage) : List MemoryMessage :=
  updateMsgsFrom uid sel op flags 0 msgs

/-- Inner loop of MemoryMailbox.ListMessages: soft-deleted messages are
skipped, and the sequence number attached to a reported message is its
one-based position in the full stored list (the loop index i plus one),
computed afresh on every call. -/
def listMessagesFrom (uid : Bool) (sel : Nat → Bool) :
    Nat → List MemoryMessage → List (Nat × MemoryMessage)
  | _, [] => []
  | i, m :: rest =>
    let tail := listMessagesFrom uid sel (i + 1) rest
    if m.deleted then tail
    else
      let matched := if uid then sel m.uid else sel (i + 1)
      if matched then (i + 1, m) :: tail else tail

/-- Embedding of MemoryMailbox.ListMessages, reporting the pairs of
sequence number and message that would be sent on the channel. -/
def listMessages (uid : Bool) (sel : Nat → Bool) (msgs : List MemoryMessage) :
    List (Nat × MemoryMessage) :=
  listMessagesFrom uid sel 0 msgs

/-- Inner loop of MemoryMailbox.SearchMessages: the search criteria are
ignored by the Go code, soft-deleted messages are skipped, and the
reported number is the UID or the one-based position in the full list. -/
def searchMessagesFrom (uid : Bool) : Nat → List MemoryMessage → List Nat
  | _, [] => []
  | i, m :: rest =>
    let tail := searchMessagesFrom uid (i + 1) rest
    if m.deleted then tail
    else (if uid then m.uid else i + 1) :: tail

/-- Embedding of MemoryMailbox.SearchMessages. -/
def searchMessages (uid : Bool) (msgs : List MemoryMessage) : List Nat :=
  searchMessagesFrom uid 0 msgs

/-- Embedding of MemoryMailbox.CreateMessage: the new message takes the
current uidNext, and the counter is the Go uint32 increment, hence the
reduction modulo 2 ^ 32. -/
def createMessage (flags : List Str) (date : Int) (mb : MemoryMailbox) : MemoryMailbox :=
  { mb with
    messages := mb.messages ++ [{ uid := mb.uidNext, date := date, flags := flags }]
    uidNext := (mb.uidNext + 1) % 2 ^ 32 }

/-- Embedding of MemoryMailbox.Expunge: keep exactly the messages whose
soft-delete marker is not set; uidNext is untouched. -/
def expungeMailbox (mb : MemoryMailbox) : MemoryMailbox :=
  { mb with messages := mb.messages.filter (fun m => !m.deleted) }

/-- Embedding of the mailbox-side effect of MemoryUser.RenameMailbox: the
name changes, messages and uidNext are untouched. -/
def renameMailbox (n : Str) (mb : MemoryMailbox) : MemoryMailbox :=
  { mb with name := n }

/-- The INBOX created by NewMemoryBackend: empty, uidNext 1. -/
def freshMailbox (n : Str) : MemoryMailbox :=
  { name := n, messages := [], uidNext := 1 }

/-- C2.  The claim describes AddFlags as a duplicate-free union and
RemoveFlags as subtraction, with the soft-delete marker equal to
membership of the deleted token afterwards.  The code deviates: this
theorem evaluates UpdateMessagesFlags at the failing inputs, showing that
RemoveFlags leaves the deleted token in the flag list while clearing the
marker (so the marker disagrees with membership), and that AddFlags
appends a flag that is already present. -/
theorem c2_updateMessagesFlags_divergence :
    updateMessagesFlags true (fun u => u == 1) .remove [DeletedFlag]
        [{ uid := 1, flags := [DeletedFlag], deleted := true }] =
      [{ uid := 1, flags := [DeletedFlag], deleted := false }] ∧
    updateMessagesFlags true (fun u => u == 1) .add [str "\\Seen"]
        [{ uid := 1, flags := [str "\\Seen"] }] =
      [{ uid := 1, flags := [str "\\Seen", str "\\Seen"] }] := by
  decide

/-- First message of the C3 counterexample: soft-deleted. -/
def c3m1 : MemoryMessage := { uid := 1, deleted := true }

/-- Second message of the C3 counterexample: not deleted. -/
def c3m2 : MemoryMessage := { uid := 2 }

/-- Sequence number as the claim defines it: one plus the number of
undeleted messages preceding position i.  Modelled from the claim
wording, for comparison against the code. -/
def claimSeqNum (msgs : List MemoryMessage) (i : Nat) : Nat :=
  1 + (msgs.take i).countP (fun m => !m.deleted)

/-- C3, counterexample.  In a mailbox whose first message is soft-deleted,
the listing reports sequence number 2 for the second message (its
position in the full stored list), while the claim prescribes
1 + count(undeleted predecessors) = 1.  Search in sequence-number mode
reports the same 2. -/
theorem c3_counterexample :
    listMessages false (fun _ => true) [c3m1, c3m2] = [(2, c3m2)] ∧
    claimSeqNum [c3m1, c3m2] 1 = 1 ∧
    searchMessages false [c3m1, c3m2] = [2] ∧ (2 : Nat) ≠ 1 := by
  decide

theorem mem_listMessagesFrom (uid : Bool) (sel : Nat → Bool) :
    ∀ (msgs : List MemoryMessage) (i : Nat) (p : Nat × MemoryMessage),
      p ∈ listMessagesFrom uid sel i msgs →
      p.2.deleted = false ∧ ∃ j, msgs[j]? = some p.2 ∧ p.1 = i + j + 1 := by
  intro msgs
  induction msgs with
  | nil => intro i p hp; simp [listMessagesFrom] at hp
  | cons m rest ih =>
    intro i p hp
    simp only [listMessagesFrom] at hp
    by_cases hd : m.deleted
    · rw [if_pos hd] at hp
      obtain ⟨hdel, j, hj, hseq⟩ := ih (i + 1) p hp
      exact ⟨hdel, j + 1, by simpa using hj, by omega⟩
    · rw [if_neg hd] at hp
      by_cases hm : (if uid then sel m.uid else sel (i + 1)) = true
      · rw [if_pos hm] at hp
        rcases List.mem_cons.mp hp with heq | htail
        · subst heq
          exact ⟨Bool.not_eq_true _ ▸ by simpa using hd, 0, by simp, by omega⟩
        · obtain ⟨hdel, j, hj, hseq⟩ := ih (i + 1) p htail
          exact ⟨hdel, j + 1, by simpa using hj, by omega⟩
      · rw [if_neg hm] at hp
        obtain ⟨hdel, j, hj, hseq⟩ := ih (i + 1) p hp
        exact ⟨hdel, j + 1, by simpa using hj, by omega⟩

theorem mem_searchMessagesFrom :
    ∀ (msgs : List MemoryMessage) (i : Nat) (n : Nat),
      n ∈ searchMessagesFrom false i msgs →
      ∃ j m, msgs[j]? = some m ∧ m.deleted = false ∧ n = i + j + 1 := by
  intro msgs
  induction msgs with
  | nil => intro i n hn; simp [searchMessagesFrom] at hn
  | cons m rest ih =>
    intro i n hn
    simp only [searchMessagesFrom] at hn
    by_cases hd : m.deleted
    · rw [if_pos hd] at hn
      obtain ⟨j, m2, hj, hdel, hseq⟩ := ih (i + 1) n hn
      exact ⟨j + 1, m2, by simpa using hj, hdel, by omega⟩
    · rw [if_neg hd] at hn
      rcases List.mem_cons.mp hn with heq | htail
      · subst heq
        exact ⟨0, m, by simp, by simpa using hd, by simp⟩
      · obtain ⟨j, m2, hj, hdel, hseq⟩ := ih (i + 1) n htail
        exact ⟨j + 1, m2, by simpa using hj, hdel, by omega⟩

/-- C3, amended.  Every entry reported by a listing carries as sequence
number 1 plus the number of ALL messages (soft-deleted ones included)
preceding it in the stored list, i.e. its one-based position in the full
list, recomputed from the position on every call; the same holds for
search in sequence-number mode.  Soft-deleted messages themselves are
omitted from both outputs. -/
theorem c3_amended_seqnum_counts_all_predecessors (uid : Bool) (sel : Nat → Bool)
    (msgs : List MemoryMessage) :
    (∀ p ∈ listMessages uid sel msgs,
      p.2.deleted = false ∧ ∃ j, msgs[j]? = some p.2 ∧ p.1 = j + 1) ∧
    (∀ n ∈ searchMessages false msgs,
      ∃ j m, msgs[j]? = some m ∧ m.deleted = false ∧ n = j + 1) := by
  constructor
  · intro p hp
    obtain ⟨hdel, j, hj, hseq⟩ := mem_listMessagesFrom uid sel msgs 0 p hp
    exact ⟨hdel, j, hj, by omega⟩
  · intro n hn
    obtain ⟨j, m, hj, hdel, hseq⟩ := mem_searchMessagesFrom msgs 0 n hn
    exact ⟨j, m, hj, hdel, by omega⟩

/-- C3, witness for the amended theorem: the single entry reported for
the two-message counterexample mailbox. -/
theorem c3_amended_witness :
    ((2 : Nat), c3m2).2.deleted = false ∧
      ∃ j, [c3m1, c3m2][j]? = some ((2 : Nat), c3m2).2 ∧ ((2 : Nat), c3m2).1 = j + 1 :=
  (c3_amended_seqnum_counts_all_predecessors false (fun _ => true) [c3m1, c3m2]).1
    (2, c3m2) (by decide)

/-- One mailbox-mutating operation of the test server: message creation
(CreateMessage / AddMessage), flag mutation (UpdateMessagesFlags),
Expunge, or the mailbox-side effect of RenameMailbox. -/
inductive MailboxOp where
  | create (flags : List Str) (date : Int)
  | store (uid : Bool) (sel : Nat → Bool) (op : FlagsOp) (flags : List Str)
  | expunge
  | rename (n : Str)

/-- Interpretation of one operation on a mailbox, each case delegating to
the embedding of the corresponding Go method. -/
def applyMailboxOp : MailboxOp → MemoryMailbox → MemoryMailbox
  | .create flags date, mb => createMessage flags date mb
  | .store uid sel op flags, mb =>
      { mb with messages := updateMessagesFlags uid sel op flags mb.messages }
  | .expunge, mb => expungeMailbox mb
  | .rename n, mb => renameMailbox n mb

/-- Run a sequence of mailbox operations from a starting state. -/
def runOps (ops : List MailboxOp) (mb : MemoryMailbox) : MemoryMailbox :=
  ops.foldl (fun s op => applyMailboxOp op s) mb

/-- Number of message-creation operations in a sequence. -/
def createCount : List MailboxOp → Nat
  | [] => 0
  | .create _ _ :: rest => createCount rest + 1
  | .store _ _ _ _ :: rest => createCount rest
  | .expunge :: rest => createCount rest
  | .rename _ :: rest => createCount rest

/-- The UIDs handed out to newly created messages along a run, in order. -/
def assignedUids : List MailboxOp → MemoryMailbox → List Nat
  | [], _ => []
  | op :: rest, mb =>
    (match op with
     | .create _ _ => [mb.uidNext]
     | _ => []) ++ assignedUids rest (applyMailboxOp op mb)

theorem createCount_append (a b : List MailboxOp) :
    createCount (a ++ b) = createCount a + createCount b := by
  induction a with
  | nil => simp [createCount]
  | cons op rest ih => cases op <;> simp [createCount, ih] <;> omega

theorem runOps_append (a b : List MailboxOp) (mb : MemoryMailbox) :
    runOps (a ++ b) mb = runOps b (runOps a mb) := by
  simp [runOps, List.foldl_append]

theorem uidNext_applyMailboxOp_nonCreate (op : MailboxOp) (mb : MemoryMailbox)
    (h : ∀ flags date, op ≠ .create flags date) :
    (applyMailboxOp op mb).uidNext = mb.uidNext := by
  cases op with
  | create flags date => exact absurd rfl (h flags date)
  | store => rfl
  | expunge => rfl
  | rename => rfl

theorem uidNext_runOps (ops : List MailboxOp) (mb : MemoryMailbox)
    (hbound : mb.uidNext + createCount ops < 2 ^ 32) :
    (runOps ops mb).uidNext = mb.uidNext + createCount ops := by
  induction ops generalizing mb with
  | nil => simp [runOps, createCount]
  | cons op rest ih =>
    have hstep : runOps (op :: rest) mb = runOps rest (applyMailboxOp op mb) := rfl
    cases op with
    | create flags date =>
      have hcc : createCount (.create flags date :: rest) = createCount rest + 1 := rfl
      have hun : (applyMailboxOp (.create flags date) mb).uidNext = mb.uidNext + 1 := by
        have : mb.uidNext + 1 < 2 ^ 32 := by rw [hcc] at hbound; omega
        simp only [applyMailboxOp, createMessage]
        omega
      rw [hstep, ih _ (by rw [hun]; rw [hcc] at hbound; omega), hun, hcc]
      omega
    | store uid sel fop flags =>
      rw [hstep, ih _ (by simpa [applyMailboxOp] using hbound)]
      rfl
    | expunge =>
      rw [hstep, ih _ (by simpa [applyMailboxOp, expungeMailbox] using hbound)]
      rfl
    | rename n =>
      rw [hstep, ih _ (by simpa [applyMailboxOp, renameMailbox] using hbound)]
      rfl

theorem uid_applyFlagsOp (op : FlagsOp) (flags : List Str) (m : MemoryMessage) :
    (applyFlagsOp op flags m).uid = m.uid := by
  have hfold : ∀ (f : MemoryMessage → Str → MemoryMessage),
      (∀ a s, (f a s).uid = a.uid) →
      ∀ (l : List Str) (a : MemoryMessage), (l.foldl f a).uid = a.uid := by
    intro f hf l
    induction l with
    | nil => intro a; rfl
    | cons x xs ih => intro a; rw [List.foldl_cons, ih, hf]
  cases op with
  | add =>
      exact hfold
        (fun acc f =>
          { acc with
            deleted := if f == DeletedFlag then true else acc.deleted
            flags := acc.flags ++ [f] })
        (fun a s => rfl) flags m
  | remove =>
      exact hfold _ (fun a s => by by_cases h : (s == DeletedFlag) = true <;> simp [h]) flags m
  | set =>
      exact hfold _ (fun a s => by by_cases h : (s == DeletedFlag) = true <;> simp [h]) flags
        { m with flags := flags, deleted := false }

theorem mem_updateMsgsFrom_uid (uid : Bool) (sel : Nat → Bool) (op : FlagsOp)
    (flags : List Str) :
    ∀ (msgs : List MemoryMessage) (i : Nat) (m2 : MemoryMessage),
      m2 ∈ updateMsgsFrom uid sel op flags i msgs → ∃ m ∈ msgs, m2.uid = m.uid := by
  intro msgs
  induction msgs with
  | nil => intro i m2 h; simp [updateMsgsFrom] at h
  | cons m rest ih =>
    intro i m2 h
    simp only [updateMsgsFrom] at h
    rcases List.mem_cons.mp h with heq | htail
    · by_cases hm : (if uid then sel m.uid else sel (i + 1)) = true
      · rw [if_pos hm] at heq
        exact ⟨m, List.mem_cons_self .., heq ▸ uid_applyFlagsOp op flags m⟩
      · rw [if_neg hm] at heq
        exact ⟨m, List.mem_cons_self .., by rw [heq]⟩
    · obtain ⟨m3, hmem, hu⟩ := ih (i + 1) m2 htail
      exact ⟨m3, List.mem_cons_of_mem _ hmem, hu⟩

theorem wf_runOps (ops : List MailboxOp) (mb : MemoryMailbox)
    (hwf : ∀ m ∈ mb.messages, m.uid < mb.uidNext)
    (hbound : mb.uidNext + createCount ops < 2 ^ 32) :
    ∀ m ∈ (runOps ops mb).messages, m.uid < (runOps ops mb).uidNext := by
  induction ops generalizing mb with
  | nil => simpa [runOps] using hwf
  | cons op rest ih =>
    have hstep : runOps (op :: rest) mb = runOps rest (applyMailboxOp op mb) := rfl
    rw [hstep]
    cases op with
    | create flags date =>
      have hlt : mb.uidNext + 1 < 2 ^ 32 := by
        have : createCount (.create flags date :: rest) = createCount rest + 1 := rfl
        rw [this] at hbound; omega
      have hun : (applyMailboxOp (.create flags date) mb).uidNext = mb.uidNext + 1 := by
        simp only [applyMailboxOp, createMessage]
        omega
      apply ih
      · intro m hm
        rw [hun]
        simp only [applyMailboxOp, createMessage, List.mem_append] at hm
        rcases hm with hold | hnew
        · exact Nat.lt_succ_of_lt (hwf m hold)
        · simp only [List.mem_singleton] at hnew
          rw [hnew]
          exact Nat.lt_succ_self _
      · rw [hun]
        have : createCount (.create flags date :: rest) = createCount rest + 1 := rfl
        rw [this] at hbound; omega
    | store uid sel fop flags =>
      apply ih
      · intro m hm
        simp only [applyMailboxOp] at hm ⊢
        obtain ⟨m0, hm0, hu⟩ :=
          mem_updateMsgsFrom_uid uid sel fop flags mb.messages 0 m hm
        exact hu ▸ hwf m0 hm0
      · simpa [applyMailboxOp] using hbound
    | expunge =>
      apply ih
      · intro m hm
        simp only [applyMailboxOp, expungeMailbox, List.mem_filter] at hm ⊢
        exact hwf m hm.1
      · simpa [applyMailboxOp, expungeMailbox] using hbound
    | rename n =>
      apply ih
      · intro m hm
        simpa [applyMailboxOp, renameMailbox] using hwf m (by simpa [applyMailboxOp, renameMailbox] using hm)
      · simpa [applyMailboxOp, renameMailbox] using hbound

theorem mem_assignedUids_bounds (ops : List MailboxOp) (mb : MemoryMailbox)
    (hbound : mb.uidNext + createCount ops < 2 ^ 32) :
    ∀ u ∈ assignedUids ops mb, mb.uidNext ≤ u ∧ u < mb.uidNext + createCount ops := by
  induction ops generalizing mb with
  | nil => simp [assignedUids]
  | cons op rest ih =>
    intro u hu
    cases op with
    | create flags date =>
      have hcc : createCount (.create flags date :: rest) = createCount rest + 1 := rfl
      have hlt : mb.uidNext + 1 < 2 ^ 32 := by rw [hcc] at hbound; omega
      have hun : (applyMailboxOp (.create flags date) mb).uidNext = mb.uidNext + 1 := by
        simp only [applyMailboxOp, createMessage]
        omega
      simp only [assignedUids, List.mem_append, List.mem_singleton] at hu
      rcases hu with heq | htail
      · rw [hcc]; omega
      · have := ih (applyMailboxOp (.create flags date) mb)
          (by rw [hun]; rw [hcc] at hbound; omega) u htail
        rw [hun] at this; rw [hcc]; omega
    | store uid sel fop flags =>
      simp only [assignedUids, List.nil_append] at hu
      have := ih (applyMailboxOp (.store uid sel fop flags) mb)
        (by simpa [applyMailboxOp] using hbound) u hu
      simpa [applyMailboxOp, createCount] using this
    | expunge =>
      simp only [assignedUids, List.nil_append] at hu
      have := ih (applyMailboxOp .expunge mb)
        (by simpa [applyMailboxOp, expungeMailbox] using hbound) u hu
      simpa [applyMailboxOp, expungeMailbox, createCount] using this
    | rename n =>
      simp only [assignedUids, List.nil_append] at hu
      have := ih (applyMailboxOp (.rename n) mb)
        (by simpa [applyMailboxOp, renameMailbox] using hbound) u hu
      simpa [applyMailboxOp, renameMailbox, createCount] using this

theorem pairwise_assignedUids (ops : List MailboxOp) (mb : MemoryMailbox)
    (hbound : mb.uidNext + createCount ops < 2 ^ 32) :
    List.Pairwise (· < ·) (assignedUids ops mb) := by
  induction ops generalizing mb with
  | nil => simp [assignedUids]
  | cons op rest ih =>
    cases op with
    | create flags date =>
      have hcc : createCount (.create flags date :: rest) = createCount rest + 1 := rfl
      have hlt : mb.uidNext + 1 < 2 ^ 32 := by rw [hcc] at hbound; omega
      have hun : (applyMailboxOp (.create flags date) mb).uidNext = mb.uidNext + 1 := by
        simp only [applyMailboxOp, createMessage]
        omega
      have hb2 : (applyMailboxOp (.create flags date) mb).uidNext + createCount rest < 2 ^ 32 := by
        rw [hun]; rw [hcc] at hbound; omega
      simp only [assignedUids, List.singleton_append, List.pairwise_cons]
      refine ⟨fun u hu => ?_, ih _ hb2⟩
      have := (mem_assignedUids_bounds rest _ hb2 u hu).1
      rw [hun] at this; omega
    | store uid sel fop flags =>
      simpa [assignedUids] using ih (applyMailboxOp (.store uid sel fop flags) mb)
        (by simpa [applyMailboxOp] using hbound)
    | expunge =>
      simpa [assignedUids] using ih (applyMailboxOp .expunge mb)
        (by simpa [applyMailboxOp, expungeMailbox] using hbound)
    | rename n =>
      simpa [assignedUids] using ih (applyMailboxOp (.rename n) mb)
        (by simpa [applyMailboxOp, renameMailbox] using hbound)

theorem uidNext_runCreates (k : Nat) (mb : MemoryMailbox) (h : mb.uidNext < 2 ^ 32) :
    (runOps (List.replicate k (.create [] 0)) mb).uidNext = (mb.uidNext + k) % 2 ^ 32 := by
  induction k generalizing mb with
  | zero => simpa [runOps] using (Nat.mod_eq_of_lt h).symm
  | succ n ih =>
    rw [List.replicate_succ]
    have hstep : runOps (MailboxOp.create [] 0 :: List.replicate n (MailboxOp.create [] 0)) mb
        = runOps (List.replicate n (MailboxOp.create [] 0))
            (applyMailboxOp (.create [] 0) mb) := rfl
    have hlt : (applyMailboxOp (.create ([] : List Str) 0) mb).uidNext < 2 ^ 32 := by
      show (mb.uidNext + 1) % 2 ^ 32 < 2 ^ 32
      exact Nat.mod_lt _ (by norm_num)
    rw [hstep, ih _ hlt]
    show ((mb.uidNext + 1) % 2 ^ 32 + n) % 2 ^ 32 = (mb.uidNext + (n + 1)) % 2 ^ 32
    omega

/-- C6, counterexample.  The uidNext counter is a Go uint32: after enough
message creations it wraps around.  Extending a run of 2 ^ 32 - 2
creations on a fresh INBOX by one more creation makes uidNext drop from
2 ^ 32 - 1 to 0, refuting monotonic non-decrease over every operation
sequence (and the created message receives UID 2 ^ 32 - 1, not smaller
than the updated counter 0; a further creation would reuse UID 0). -/
theorem c6_counterexample :
    (runOps (List.replicate (2 ^ 32 - 2) (MailboxOp.create [] 0) ++ [MailboxOp.create [] 0])
        (freshMailbox (str "INBOX"))).uidNext <
      (runOps (List.replicate (2 ^ 32 - 2) (MailboxOp.create [] 0))
        (freshMailbox (str "INBOX"))).uidNext := by
  have h1 := uidNext_runCreates (2 ^ 32 - 2) (freshMailbox (str "INBOX")) (by decide)
  have h2 := uidNext_runCreates (2 ^ 32 - 1) (freshMailbox (str "INBOX")) (by decide)
  have hrepl : List.replicate (2 ^ 32 - 2) (MailboxOp.create ([] : List Str) 0) ++
      [MailboxOp.create [] 0] = List.replicate (2 ^ 32 - 1) (MailboxOp.create [] 0) := by
    have h32 : (2 ^ 32 - 1) = (2 ^ 32 - 2) + 1 := by norm_num
    rw [h32, List.replicate_succ']
  rw [hrepl, h1, h2]
  have hun : (freshMailbox (str "INBOX")).uidNext = 1 := rfl
  rw [hun]
  norm_num

/-- C6, amended.  As long as the uint32 counter cannot wrap (the number
of creations keeps uidNext below 2 ^ 32), every operation sequence on a
well-formed mailbox satisfies the claim: uidNext grows by exactly the
number of creations (hence is non-decreasing along every prefix of the
run), every stored message keeps a UID strictly below the current
uidNext, the UIDs handed out along the run are strictly increasing and
never repeat, and expunge and rename leave the counter untouched. -/
theorem c6_amended_uid_monotone_no_reuse (ops : List MailboxOp) (mb : MemoryMailbox)
    (hwf : ∀ m ∈ mb.messages, m.uid < mb.uidNext)
    (hbound : mb.uidNext + createCount ops < 2 ^ 32) :
    (runOps ops mb).uidNext = mb.uidNext + createCount ops ∧
    (∀ pre suf, ops = pre ++ suf → (runOps pre mb).uidNext ≤ (runOps ops mb).uidNext) ∧
    (∀ m ∈ (runOps ops mb).messages, m.uid < (runOps ops mb).uidNext) ∧
    (∀ u ∈ assignedUids ops mb, mb.uidNext ≤ u ∧ u < (runOps ops mb).uidNext) ∧
    List.Pairwise (· < ·) (assignedUids ops mb) ∧
    (assignedUids ops mb).Nodup ∧
    ((applyMailboxOp .expunge mb).uidNext = mb.uidNext ∧
      ∀ n, (applyMailboxOp (.rename n) mb).uidNext = mb.uidNext) := by
  refine ⟨uidNext_runOps ops mb hbound, ?_, wf_runOps ops mb hwf hbound, ?_, ?_, ?_, rfl, fun n => rfl⟩
  · intro pre suf heq
    subst heq
    rw [createCount_append] at hbound
    rw [uidNext_runOps pre mb (by omega),
      uidNext_runOps (pre ++ suf) mb (by rw [createCount_append]; omega),
      createCount_append]
    omega
  · intro u hu
    have hb := mem_assignedUids_bounds ops mb hbound u hu
    rw [uidNext_runOps ops mb hbound]
    omega
  · exact pairwise_assignedUids ops mb hbound
  · exact List.Pairwise.imp (fun h => Nat.ne_of_lt h) (pairwise_assignedUids ops mb hbound)

/-- Concrete run for the C6 witness: create, flag mutation, expunge,
create, rename on a fresh INBOX. -/
def c6ops : List MailboxOp :=
  [MailboxOp.create [] 0,
   MailboxOp.store true (fun u => u == 1) FlagsOp.add [DeletedFlag],
   MailboxOp.expunge,
   MailboxOp.create [] 0,
   MailboxOp.rename (str "Archive")]

/-- C6, witness for the amended theorem at the concrete run c6ops. -/
theorem c6_amended_witness :
    (runOps c6ops (freshMailbox (str "INBOX"))).uidNext =
        (freshMailbox (str "INBOX")).uidNext + createCount c6ops ∧
    (∀ pre suf, c6ops = pre ++ suf →
      (runOps pre (freshMailbox (str "INBOX"))).uidNext ≤
        (runOps c6ops (freshMailbox (str "INBOX"))).uidNext) ∧
    (∀ m ∈ (runOps c6ops (freshMailbox (str "INBOX"))).messages,
      m.uid < (runOps c6ops (freshMailbox (str "INBOX"))).uidNext) ∧
    (∀ u ∈ assignedUids c6ops (freshMailbox (str "INBOX")),
      (freshMailbox (str "INBOX")).uidNext ≤ u ∧
        u < (runOps c6ops (freshMailbox (str "INBOX"))).uidNext) ∧
    List.Pairwise (· < ·) (assignedUids c6ops (freshMailbox (str "INBOX"))) ∧
    (assignedUids c6ops (freshMailbox (str "INBOX"))).Nodup ∧
    ((applyMailboxOp .expunge (freshMailbox (str "INBOX"))).uidNext =
        (freshMailbox (str "INBOX")).uidNext ∧
      ∀ n, (applyMailboxOp (.rename n) (freshMailbox (str "INBOX"))).uidNext =
        (freshMailbox (str "INBOX")).uidNext) :=
  c6_amended_uid_monotone_no_reuse c6ops (freshMailbox (str "INBOX"))
    (by decide) (by decide)

/-- Embedding of models.Rule (internal/models): a single-pattern move
rule.  Timestamps are abstract integers; they play no role in matching
or ordering. -/
structure Rule where
  id : Int := 0
  accountId : Int := 0
  name : Str := []
  pattern : Str := []
  patternType : Str := []
  moveToFolder : Str := []
  enabled : Bool := true
  priority : Int := 0
  createdAt : Int := 0
  updatedAt : Int := 0
  deriving Repr, DecidableEq

/-- Embedding of models.Message (internal/models), the per-run message
view built by FetchMessages with MatchedRule initially nil. -/
structure Message where
  uid : Nat := 0
  seqNum : Nat := 0
  fromAddr : Str := []
  toAddr : Str := []
  subject : Str := []
  date : Int := 0
  flags : List Str := []
  matchedRule : Option Rule := none
  deriving Repr, DecidableEq

/-- Model of strings.LastIndex(s, single-character needle): index of the
last occurrence. -/
def lastIdxOf (c : Char) : Str → Option Nat
  | [] => none
  | x :: xs =>
    match lastIdxOf c xs with
    | some i => some (i + 1)
    | none => if x == c then some 0 else none

/-- Embedding of matchesRule (the web imap package).  The switch on
PatternType sends the labels sender and the empty string, and every
unrecognized label, to case-insensitive substring containment of the
pattern in the From field; subject compares against the Subject field;
from_domain compares against the part of the lowercased From field after
the last at-sign, with one trailing closing angle bracket removed. -/
def matchesRule (m : Message) (rule : Rule) : Bool :=
  let pattern := rule.pattern.map goToLower
  if rule.patternType == str "sender" || rule.patternType == [] then
    containsSub (m.fromAddr.map goToLower) pattern
  else if rule.patternType == str "subject" then
    containsSub (m.subject.map goToLower) pattern
  else if rule.patternType == str "from_domain" then
    let f := m.fromAddr.map goToLower
    match lastIdxOf '@' f with
    | some idx => containsSub (removeSuffix (f.drop (idx + 1)) (str ">")) pattern
    | none => false
  else
    containsSub (m.fromAddr.map goToLower) pattern

/-- Byte-wise lexicographic order on names, the SQLite BINARY collation
used by ORDER BY name (coincides with code-point order on the ASCII
names at play). -/
def nameLe (a b : Str) : Bool :=
  match a, b with
  | [], _ => true
  | _ :: _, [] => false
  | x :: xs, y :: ys =>
    if x.toNat < y.toNat then true
    else if y.toNat < x.toNat then false
    else nameLe xs ys

/-- The comparison realised by ORDER BY priority DESC, name: a sorts no
later than b when its priority is higher, or equal with a name that is
no later. -/
def ruleBefore (a b : Rule) : Bool :=
  if a.priority == b.priority then nameLe a.name b.name else decide (b.priority < a.priority)

/-- Insertion into a list ordered by ruleBefore. -/
def insertRule (r : Rule) : List Rule → List Rule
  | [] => [r]
  | x :: xs => if ruleBefore r x then r :: x :: xs else x :: insertRule r xs

/-- Embedding of the ordering contract of Store.ListRules: the rules of
the account sorted by priority descending, ties broken by name
ascending (the ORDER BY clause of the SQL query). -/
def sortRules (rs : List Rule) : List Rule := rs.foldr insertRule []

/-- The per-message inner loop shared by PreviewRules (imap package) and
the live-preview handler: walk the rule list in the given order, skip
disabled rules, stop at the first rule whose pattern matches. -/
def firstMatchingRule (m : Message) : List Rule → Option Rule
  | [] => none
  | r :: rest =>
    if r.enabled then
      if matchesRule m r then some r else firstMatchingRule m rest
    else firstMatchingRule m rest

example : matchesRule { fromAddr := str "newsletter@company.com" }
    { pattern := str "newsletter", patternType := str "sender" } = true := by decide
example : matchesRule { fromAddr := str "other@x.com" }
    { pattern := str "newsletter", patternType := str "sender" } = false := by decide
example : matchesRule { fromAddr := str "Bob <bob@Mail.Example.COM>" }
    { pattern := str "example.com", patternType := str "from_domain" } = true := by decide
example : matchesRule { fromAddr := str "newsletter@company.com" }
    { pattern := str "newsletter", patternType := str "unknown_type" } = true := by decide
example :
    (sortRules
      [{ name := str "a", priority := 5 }, { name := str "b", priority := 10 },
       { name := str "c", priority := 1 }, { name := str "d", priority := 8 }]).map
        Rule.priority = [10, 8, 5, 1] := by decide

theorem nameLe_refl (a : Str) : nameLe a a = true := by
  induction a with
  | nil => rfl
  | cons x xs ih => simp [nameLe, ih]

theorem nameLe_total (a b : Str) : nameLe a b = true ∨ nameLe b a = true := by
  induction a generalizing b with
  | nil => left; rfl
  | cons x xs ih =>
    cases b with
    | nil => right; rfl
    | cons y ys =>
      rcases Nat.lt_trichotomy x.toNat y.toNat with h | h | h
      · left; simp [nameLe, h]
      · rcases ih ys with h2 | h2
        · left; simp [nameLe, h, h2]
        · right; simp [nameLe, h.symm, h2]
      · right; simp [nameLe, h]

theorem nameLe_trans {a b c : Str} (h1 : nameLe a b = true) (h2 : nameLe b c = true) :
    nameLe a c = true := by
  induction a generalizing b c with
  | nil => rfl
  | cons x xs ih =>
    cases b with
    | nil => simp [nameLe] at h1
    | cons y ys =>
      cases c with
      | nil => simp [nameLe] at h2
      | cons z zs =>
        simp only [nameLe] at h1 h2 ⊢
        by_cases hxy : x.toNat < y.toNat
        · by_cases hyz : y.toNat < z.toNat
          · simp [Nat.lt_trans hxy hyz]
          · by_cases hzy : z.toNat < y.toNat
            · simp [if_neg hyz, if_pos hzy] at h2
            · have hxz : x.toNat < z.toNat := by omega
              simp [hxz]
        · by_cases hyx : y.toNat < x.toNat
          · simp [if_neg hxy, if_pos hyx] at h1
          · by_cases hyz : y.toNat < z.toNat
            · have hxz : x.toNat < z.toNat := by omega
              simp [hxz]
            · by_cases hzy : z.toNat < y.toNat
              · simp [if_neg hyz, if_pos hzy] at h2
              · have hxz : ¬ x.toNat < z.toNat := by omega
                have hzx : ¬ z.toNat < x.toNat := by omega
                rw [if_neg hxz, if_neg hzx]
                rw [if_neg hxy, if_neg hyx] at h1
                rw [if_neg hyz, if_neg hzy] at h2
                exact ih h1 h2

theorem ruleBefore_iff (a b : Rule) :
    ruleBefore a b = true ↔
      (a.priority = b.priority ∧ nameLe a.name b.name = true) ∨
        (a.priority ≠ b.priority ∧ b.priority < a.priority) := by
  by_cases h : a.priority = b.priority <;> simp [ruleBefore, h]

theorem ruleBefore_refl (a : Rule) : ruleBefore a a = true := by
  simp [ruleBefore_iff, nameLe_refl]

theorem ruleBefore_total (a b : Rule) : ruleBefore a b = true ∨ ruleBefore b a = true := by
  rcases Int.lt_trichotomy a.priority b.priority with h | h | h
  · right; rw [ruleBefore_iff]; exact Or.inr ⟨by omega, h⟩
  · rcases nameLe_total a.name b.name with h2 | h2
    · left; rw [ruleBefore_iff]; exact Or.inl ⟨h, h2⟩
    · right; rw [ruleBefore_iff]; exact Or.inl ⟨h.symm, h2⟩
  · left; rw [ruleBefore_iff]; exact Or.inr ⟨by omega, h⟩

theorem ruleBefore_trans {a b c : Rule} (h1 : ruleBefore a b = true)
    (h2 : ruleBefore b c = true) : ruleBefore a c = true := by
  rw [ruleBefore_iff] at h1 h2 ⊢
  rcases h1 with ⟨hp1, hn1⟩ | ⟨hp1, hl1⟩ <;> rcases h2 with ⟨hp2, hn2⟩ | ⟨hp2, hl2⟩
  · exact Or.inl ⟨hp1.trans hp2, nameLe_trans hn1 hn2⟩
  · exact Or.inr ⟨by omega, by omega⟩
  · exact Or.inr ⟨by omega, by omega⟩
  · exact Or.inr ⟨by omega, by omega⟩

theorem mem_insertRule {r y : Rule} : ∀ {l : List Rule}, y ∈ insertRule r l → y = r ∨ y ∈ l := by
  intro l
  induction l with
  | nil => intro h; simp [insertRule] at h; exact Or.inl h
  | cons x xs ih =>
    intro h
    simp only [insertRule] at h
    by_cases hb : ruleBefore r x = true
    · rw [if_pos hb] at h
      rcases List.mem_cons.mp h with h | h
      · exact Or.inl h
      · exact Or.inr h
    · rw [if_neg hb] at h
      rcases List.mem_cons.mp h with h | h
      · exact Or.inr (h ▸ List.mem_cons_self ..)
      · rcases ih h with h | h
        · exact Or.inl h
        · exact Or.inr (List.mem_cons_of_mem _ h)

theorem pairwise_insertRule {r : Rule} {l : List Rule}
    (h : List.Pairwise (fun a b => ruleBefore a b = true) l) :
    List.Pairwise (fun a b => ruleBefore a b = true) (insertRule r l) := by
  induction l with
  | nil => simp [insertRule]
  | cons x xs ih =>
    rcases List.pairwise_cons.mp h with ⟨hx, hxs⟩
    simp only [insertRule]
    by_cases hb : ruleBefore r x = true
    · rw [if_pos hb]
      refine List.pairwise_cons.mpr ⟨?_, h⟩
      intro y hy
      rcases List.mem_cons.mp hy with h2 | h2
      · exact h2 ▸ hb
      · exact ruleBefore_trans hb (hx y h2)
    · rw [if_neg hb]
      refine List.pairwise_cons.mpr ⟨?_, ih hxs⟩
      intro y hy
      rcases mem_insertRule hy with h2 | h2
      · subst h2
        rcases ruleBefore_total x y with h3 | h3
        · exact h3
        · exact absurd h3 hb
      · exact hx y h2

theorem perm_insertRule (r : Rule) (l : List Rule) : (insertRule r l).Perm (r :: l) := by
  induction l with
  | nil => simp [insertRule]
  | cons x xs ih =>
    simp only [insertRule]
    by_cases hb : ruleBefore r x = true
    · rw [if_pos hb]
    · rw [if_neg hb]
      exact (ih.cons x).trans (List.Perm.swap r x xs)

theorem sortRules_pairwise (rs : List Rule) :
    List.Pairwise (fun a b => ruleBefore a b = true) (sortRules rs) := by
  induction rs with
  | nil => simp [sortRules]
  | cons x xs ih => exact pairwise_insertRule ih

theorem sortRules_perm (rs : List Rule) : (sortRules rs).Perm rs := by
  induction rs with
  | nil => simp [sortRules]
  | cons x xs ih =>
    exact (perm_insertRule x (sortRules xs)).trans (ih.cons x)

theorem firstMatchingRule_sound {m : Message} :
    ∀ {l : List Rule} {r : Rule}, firstMatchingRule m l = some r →
      r ∈ l ∧ r.enabled = true ∧ matchesRule m r = true := by
  intro l
  induction l with
  | nil => intro r h; simp [firstMatchingRule] at h
  | cons x xs ih =>
    intro r h
    simp only [firstMatchingRule] at h
    by_cases he : x.enabled = true
    · rw [if_pos he] at h
      by_cases hm : matchesRule m x = true
      · rw [if_pos hm] at h
        obtain rfl : x = r := by simpa using h
        exact ⟨List.mem_cons_self .., he, hm⟩
      · rw [if_neg hm] at h
        obtain ⟨h1, h2, h3⟩ := ih h
        exact ⟨List.mem_cons_of_mem _ h1, h2, h3⟩
    · rw [if_neg he] at h
      obtain ⟨h1, h2, h3⟩ := ih h
      exact ⟨List.mem_cons_of_mem _ h1, h2, h3⟩

theorem firstMatchingRule_first {m : Message} :
    ∀ {l : List Rule} {r : Rule},
      List.Pairwise (fun a b => ruleBefore a b = true) l →
      firstMatchingRule m l = some r →
      ∀ x ∈ l, x.enabled = true → matchesRule m x = true → ruleBefore r x = true := by
  intro l
  induction l with
  | nil => intro r _ h; simp [firstMatchingRule] at h
  | cons y ys ih =>
    intro r hpw h x hx hxe hxm
    rcases List.pairwise_cons.mp hpw with ⟨hy, hys⟩
    simp only [firstMatchingRule] at h
    by_cases he : y.enabled = true
    · rw [if_pos he] at h
      by_cases hm : matchesRule m y = true
      · rw [if_pos hm] at h
        obtain rfl : y = r := by simpa using h
        rcases List.mem_cons.mp hx with h2 | h2
        · exact h2 ▸ ruleBefore_refl _
        · exact hy x h2
      · rw [if_neg hm] at h
        rcases List.mem_cons.mp hx with h2 | h2
        · exact absurd (h2 ▸ hxm) hm
        · exact ih hys h x h2 hxe hxm
    · rw [if_neg he] at h
      rcases List.mem_cons.mp hx with h2 | h2
      · exact absurd (h2 ▸ hxe) he
      · exact ih hys h x h2 hxe hxm

/-- The four-rule list of the C4 example, priorities 5, 10, 1, 8 with
distinct names. -/
def c4rules : List Rule :=
  [{ name := str "a", priority := 5 }, { name := str "b", priority := 10 },
   { name := str "c", priority := 1 }, { name := str "d", priority := 8 }]

/-- C4.  Under the first-match strategy the rule list is sorted by
priority descending with ties broken by name ascending (the sorted list
is pairwise ordered by ruleBefore and a permutation of the input); the
rule recorded for a message is enabled, matches, and sorts no later than
every other enabled matching rule, so each message is matched by at most
the one rule the loop stops at; and for priorities 5, 10, 1, 8 the
evaluation order is 10, 8, 5, 1. -/
theorem c4_first_match_strategy (rules : List Rule) (m : Message) (r : Rule)
    (h : firstMatchingRule m (sortRules rules) = some r) :
    List.Pairwise (fun a b => ruleBefore a b = true) (sortRules rules) ∧
    (sortRules rules).Perm rules ∧
    r ∈ rules ∧ r.enabled = true ∧ matchesRule m r = true ∧
    (∀ x ∈ rules, x.enabled = true → matchesRule m x = true → ruleBefore r x = true) ∧
    (sortRules c4rules).map Rule.priority = [10, 8, 5, 1] := by
  obtain ⟨hmem, hen, hmat⟩ := firstMatchingRule_sound h
  refine ⟨sortRules_pairwise rules, sortRules_perm rules,
    (sortRules_perm rules).mem_iff.mp hmem, hen, hmat, ?_, by decide⟩
  intro x hx hxe hxm
  exact firstMatchingRule_first (sortRules_pairwise rules) h x
    ((sortRules_perm rules).mem_iff.mpr hx) hxe hxm

/-- C4, witness: on the example rule list, every rule pattern is empty
and matches; the loop stops at the priority-10 rule named b. -/
theorem c4_witness :
    List.Pairwise (fun a b => ruleBefore a b = true) (sortRules c4rules) ∧
    (sortRules c4rules).Perm c4rules ∧
    ({ name := str "b", priority := 10 } : Rule) ∈ c4rules ∧
    ({ name := str "b", priority := 10 } : Rule).enabled = true ∧
    matchesRule {} { name := str "b", priority := 10 } = true ∧
    (∀ x ∈ c4rules, x.enabled = true → matchesRule {} x = true →
      ruleBefore { name := str "b", priority := 10 } x = true) ∧
    (sortRules c4rules).map Rule.priority = [10, 8, 5, 1] :=
  c4_first_match_strategy c4rules {} { name := str "b", priority := 10 } (by decide)

/-- C10.  For every message and rule whose pattern-kind tag is neither
subject nor from_domain (so: sender, the empty tag, or any unrecognized
tag), pattern evaluation is case-insensitive substring containment of
the pattern in the From field, exactly the behavior of the sender kind. -/
theorem c10_default_pattern_type_is_sender (m : Message) (rule : Rule)
    (h1 : rule.patternType ≠ str "subject") (h2 : rule.patternType ≠ str "from_domain") :
    matchesRule m rule = containsLower m.fromAddr rule.pattern ∧
    matchesRule m rule = matchesRule m { rule with patternType := str "sender" } := by
  have hsub : (rule.patternType == str "subject") = false := by simpa using h1
  have hdom : (rule.patternType == str "from_domain") = false := by simpa using h2
  have hR : matchesRule m { rule with patternType := str "sender" } =
      containsLower m.fromAddr rule.pattern := by
    simp [matchesRule, containsLower]
  have hL : matchesRule m rule = containsLower m.fromAddr rule.pattern := by
    by_cases hs : (rule.patternType == str "sender" || rule.patternType == ([] : Str)) = true
    · rcases (by simpa using hs : rule.patternType = str "sender" ∨ rule.patternType = ([] : Str)) with h | h <;>
        simp [matchesRule, h, containsLower]
    · rw [Bool.not_eq_true] at hs
      simp [matchesRule, hs, hsub, hdom, containsLower]
  exact ⟨hL, hL.trans hR.symm⟩


/-- C10, witness at the unknown pattern kind of the model tests. -/
theorem c10_witness :
    matchesRule { fromAddr := str "newsletter@company.com" }
        { pattern := str "newsletter", patternType := str "unknown_type" } =
      containsLower (str "newsletter@company.com") (str "newsletter") ∧
    matchesRule { fromAddr := str "newsletter@company.com" }
        { pattern := str "newsletter", patternType := str "unknown_type" } =
      matchesRule { fromAddr := str "newsletter@company.com" }
        { ({ pattern := str "newsletter", patternType := str "unknown_type" } : Rule) with
          patternType := str "sender" } :=
  c10_default_pattern_type_is_sender { fromAddr := str "newsletter@company.com" }
    { pattern := str "newsletter", patternType := str "unknown_type" }
    (by decide) (by decide)

/-- Embedding of models.PreviewResult.  The Go map from rule id to match
count becomes an association list without duplicate keys, built by the
increment operation below; counts are Nat. -/
structure PreviewResult where
  totalMessages : Nat
  matchedMessages : Nat
  messages : List Message
  ruleMatches : List (Int × Nat)
  deriving Repr, DecidableEq

/-- The map increment result.RuleMatches[rule.ID]++ on the association
list model: bump an existing key or append a new key with count 1. -/
def bumpCount (id : Int) : List (Int × Nat) → List (Int × Nat)
  | [] => [(id, 1)]
  | (k, v) :: rest => if k == id then (k, v + 1) :: rest else (k, v) :: bumpCount id rest

/-- Accumulator of the PreviewRules message loop. -/
structure PrevAcc where
  matched : Nat
  ruleMatches : List (Int × Nat)
  outMsgs : List Message
  deriving Repr, DecidableEq

/-- One iteration of the PreviewRules message loop: find the first
enabled matching rule; on a match record it on the message, count it,
and bump its per-rule counter; otherwise pass the message through. -/
def processMsg (rules : List Rule) (s : PrevAcc) (m : Message) : PrevAcc :=
  match firstMatchingRule m rules with
  | some r =>
    { matched := s.matched + 1
      ruleMatches := bumpCount r.id s.ruleMatches
      outMsgs := s.outMsgs ++ [{ m with matchedRule := some r }] }
  | none => { s with outMsgs := s.outMsgs ++ [m] }

/-- Embedding of Client.PreviewRules (the web imap package) on already
fetched messages: TotalMessages is the fetch count, the loop fills
MatchedMessages, RuleMatches and the per-message MatchedRule, and
Messages is the processed list. -/
def previewRules (rules : List Rule) (msgs : List Message) : PreviewResult :=
  let s := msgs.foldl (processMsg rules) ⟨0, [], []⟩
  { totalMessages := msgs.length
    matchedMessages := s.matched
    messages := s.outMsgs
    ruleMatches := s.ruleMatches }

/-- Total of the per-rule counters. -/
def sumCounts (l : List (Int × Nat)) : Nat := (l.map Prod.snd).sum

theorem sumCounts_bumpCount (id : Int) (l : List (Int × Nat)) :
    sumCounts (bumpCount id l) = sumCounts l + 1 := by
  induction l with
  | nil => rfl
  | cons p rest ih =>
    obtain ⟨k, v⟩ := p
    by_cases h : (k == id) = true
    · simp [bumpCount, h, sumCounts]
      omega
    · rw [Bool.not_eq_true] at h
      simp [bumpCount, h, sumCounts] at ih ⊢
      omega

theorem mem_bumpCount (id : Int) (p : Int × Nat) :
    ∀ l : List (Int × Nat), p ∈ bumpCount id l → p.1 = id ∨ ∃ q ∈ l, p.1 = q.1 := by
  intro l
  induction l with
  | nil =>
    intro h
    simp only [bumpCount, List.mem_singleton] at h
    exact Or.inl (by rw [h])
  | cons q rest ih =>
    obtain ⟨k, v⟩ := q
    intro h
    by_cases hk : (k == id) = true
    · rw [bumpCount, if_pos hk] at h
      rcases List.mem_cons.mp h with h2 | h2
      · left; rw [h2]; simpa using hk
      · right; exact ⟨p, List.mem_cons_of_mem _ h2, rfl⟩
    · rw [bumpCount, if_neg hk] at h
      rcases List.mem_cons.mp h with h2 | h2
      · right; exact ⟨(k, v), List.mem_cons_self .., by rw [h2]⟩
      · rcases ih h2 with h3 | ⟨q2, hq, h4⟩
        · exact Or.inl h3
        · right; exact ⟨q2, List.mem_cons_of_mem _ hq, h4⟩


theorem previewLoop_inv (rules : List Rule) :
    ∀ (msgs : List Message) (s : PrevAcc),
      (∀ m ∈ msgs, m.matchedRule = none) →
      s.matched = sumCounts s.ruleMatches →
      s.matched ≤ s.outMsgs.length →
      (∀ m ∈ s.outMsgs, ∀ rl, m.matchedRule = some rl → rl.enabled = true ∧ rl ∈ rules) →
      (∀ p ∈ s.ruleMatches, ∃ rl ∈ rules, rl.enabled = true ∧ rl.id = p.1) →
      (msgs.foldl (processMsg rules) s).matched =
          sumCounts (msgs.foldl (processMsg rules) s).ruleMatches ∧
        (msgs.foldl (processMsg rules) s).matched ≤
          (msgs.foldl (processMsg rules) s).outMsgs.length ∧
        (∀ m ∈ (msgs.foldl (processMsg rules) s).outMsgs, ∀ rl,
          m.matchedRule = some rl → rl.enabled = true ∧ rl ∈ rules) ∧
        (∀ p ∈ (msgs.foldl (processMsg rules) s).ruleMatches,
          ∃ rl ∈ rules, rl.enabled = true ∧ rl.id = p.1) ∧
        (msgs.foldl (processMsg rules) s).outMsgs.length =
          s.outMsgs.length + msgs.length := by
  intro msgs
  induction msgs with
  | nil =>
    intro s _ h1 h2 h3 h4
    exact ⟨h1, h2, h3, h4, rfl⟩
  | cons m rest ih =>
    intro s hnone h1 h2 h3 h4
    rw [List.foldl_cons]
    have hmn : m.matchedRule = none := hnone m (List.mem_cons_self ..)
    have hrest : ∀ m2 ∈ rest, m2.matchedRule = none :=
      fun m2 hm2 => hnone m2 (List.mem_cons_of_mem _ hm2)
    rcases hfmr : firstMatchingRule m rules with _ | r
    · have hstep : processMsg rules s m = { s with outMsgs := s.outMsgs ++ [m] } := by
        simp [processMsg, hfmr]
      rw [hstep]
      have := ih { s with outMsgs := s.outMsgs ++ [m] } hrest h1
        (by simpa using Nat.le_succ_of_le h2)
        (by
          intro m2 hm2 rl hrl
          rcases List.mem_append.mp hm2 with h5 | h5
          · exact h3 m2 h5 rl hrl
          · rw [List.mem_singleton.mp h5] at hrl
            rw [hmn] at hrl
            cases hrl)
        h4
      simpa [Nat.add_assoc, Nat.add_comm 1 rest.length] using this
    · obtain ⟨hrmem, hren, hrmat⟩ := firstMatchingRule_sound hfmr
      have hstep : processMsg rules s m =
          { matched := s.matched + 1
            ruleMatches := bumpCount r.id s.ruleMatches
            outMsgs := s.outMsgs ++ [{ m with matchedRule := some r }] } := by
        simp [processMsg, hfmr]
      rw [hstep]
      have := ih
        { matched := s.matched + 1
          ruleMatches := bumpCount r.id s.ruleMatches
          outMsgs := s.outMsgs ++ [{ m with matchedRule := some r }] } hrest
        (by simp [sumCounts_bumpCount, h1])
        (by simpa using Nat.succ_le_succ h2)
        (by
          intro m2 hm2 rl hrl
          rcases List.mem_append.mp hm2 with h5 | h5
          · exact h3 m2 h5 rl hrl
          · rw [List.mem_singleton.mp h5] at hrl
            simp only at hrl
            obtain rfl : r = rl := by simpa using hrl
            exact ⟨hren, hrmem⟩)
        (by
          intro p hp
          rcases mem_bumpCount r.id p s.ruleMatches hp with h5 | ⟨q, hq, h6⟩
          · exact ⟨r, hrmem, hren, h5.symm⟩
          · obtain ⟨rl, hrl1, hrl2, hrl3⟩ := h4 q hq
            exact ⟨rl, hrl1, hrl2, by rw [hrl3, h6]⟩)
      simpa [Nat.add_assoc, Nat.add_comm 1 rest.length] using this

/-- C8.  Every PreviewResult produced by a preview run over freshly
fetched messages satisfies: total_messages is the number of fetched
messages and the length of messages[], matched_messages is at most
total_messages (and at least 0, being a Nat), matched_messages equals
the sum of the per-rule counts in rule_matches, every message whose
matched_rule is set points at an enabled rule of the rule list, and
every rule_matches entry belongs to an enabled rule, so disabled rules
never appear there. -/
theorem c8_preview_result_invariants (rules : List Rule) (msgs : List Message)
    (hm : ∀ m ∈ msgs, m.matchedRule = none) :
    (previewRules rules msgs).totalMessages = msgs.length ∧
    (previewRules rules msgs).messages.length = (previewRules rules msgs).totalMessages ∧
    (previewRules rules msgs).matchedMessages ≤ (previewRules rules msgs).totalMessages ∧
    (previewRules rules msgs).matchedMessages =
      sumCounts (previewRules rules msgs).ruleMatches ∧
    (∀ m ∈ (previewRules rules msgs).messages, ∀ rl,
      m.matchedRule = some rl → rl.enabled = true ∧ rl ∈ rules) ∧
    (∀ p ∈ (previewRules rules msgs).ruleMatches,
      ∃ rl ∈ rules, rl.enabled = true ∧ rl.id = p.1) := by
  obtain ⟨h1, h2, h3, h4, h5⟩ :=
    previewLoop_inv rules msgs ⟨0, [], []⟩ hm rfl (Nat.zero_le _)
      (by intro m hm2 rl hrl; cases hm2) (by intro p hp; cases hp)
  refine ⟨rfl, ?_, ?_, h1, h3, h4⟩
  · show (msgs.foldl (processMsg rules) ⟨0, [], []⟩).outMsgs.length = msgs.length
    simpa using h5
  · show (msgs.foldl (processMsg rules) ⟨0, [], []⟩).matched ≤ msgs.length
    have h6 := h2
    simp only [h5] at h6
    simpa using h6

/-- Messages for the C8 witness: one matching, one not. -/
def c8msgs : List Message :=
  [{ fromAddr := str "newsletter@company.com" }, { fromAddr := str "person@home.org" }]

/-- Rules for the C8 witness: one enabled matching rule, one disabled. -/
def c8rules : List Rule :=
  [{ id := 1, name := str "n", pattern := str "newsletter", patternType := str "sender" },
   { id := 2, name := str "x", pattern := str "person", enabled := false }]

/-- C8, witness at a concrete two-message, two-rule preview run. -/
theorem c8_witness :
    (previewRules c8rules c8msgs).totalMessages = c8msgs.length ∧
    (previewRules c8rules c8msgs).messages.length = (previewRules c8rules c8msgs).totalMessages ∧
    (previewRules c8rules c8msgs).matchedMessages ≤ (previewRules c8rules c8msgs).totalMessages ∧
    (previewRules c8rules c8msgs).matchedMessages =
      sumCounts (previewRules c8rules c8msgs).ruleMatches ∧
    (∀ m ∈ (previewRules c8rules c8msgs).messages, ∀ rl,
      m.matchedRule = some rl → rl.enabled = true ∧ rl ∈ c8rules) ∧
    (∀ p ∈ (previewRules c8rules c8msgs).ruleMatches,
      ∃ rl ∈ c8rules, rl.enabled = true ∧ rl.id = p.1) :=
  c8_preview_result_invariants c8rules c8msgs (by decide)


/-- The three protocol steps issued by the move operation. -/
inductive MoveStep where
  | copy
  | markDeleted
  | expunge
  deriving Repr, DecidableEq

/-- Embedding of Client.MoveMessage (and the step sequence of
Client.MoveMessages): copy to the destination, mark the source deleted,
expunge, in that fixed order, each an IMAP command modelled as a partial
state transformer where none is a failed command that leaves the mailbox
state unchanged.  The first failure returns immediately: no later step
runs and nothing is rolled back.  The result is the list of steps that
were issued, the resulting mailbox state, and the success flag. -/
def moveMessage {σ : Type} (copy mark exp : σ → Option σ) (s : σ) :
    List MoveStep × σ × Bool :=
  match copy s with
  | none => ([MoveStep.copy], s, false)
  | some s1 =>
    match mark s1 with
    | none => ([MoveStep.copy, MoveStep.markDeleted], s1, false)
    | some s2 =>
      match exp s2 with
      | none => ([MoveStep.copy, MoveStep.markDeleted, MoveStep.expunge], s2, false)
      | some s3 => ([MoveStep.copy, MoveStep.markDeleted, MoveStep.expunge], s3, true)

/-- Embedding of Client.MoveMessages: an empty UID list returns at once
with no step issued; otherwise the same three-step sequence runs. -/
def moveMessages {σ : Type} (uids : List Nat) (copy mark exp : σ → Option σ) (s : σ) :
    List MoveStep × σ × Bool :=
  if uids.isEmpty then ([], s, true) else moveMessage copy mark exp s

/-- C5.  The move operation issues exactly the three steps copy, mark
deleted, expunge in that fixed order on the success path; when the copy
step fails neither the flag-set step nor the expunge step is issued and
the mailbox state is returned unchanged; intermediate failures keep the
state reached so far (no compensating rollback); and MoveMessages on a
nonempty UID list behaves exactly like the three-step sequence. -/
theorem c5_move_three_steps {σ : Type} (copy mark exp : σ → Option σ) (s : σ) :
    (copy s = none → moveMessage copy mark exp s = ([MoveStep.copy], s, false)) ∧
    (∀ s1 s2 s3, copy s = some s1 → mark s1 = some s2 → exp s2 = some s3 →
      moveMessage copy mark exp s =
        ([MoveStep.copy, MoveStep.markDeleted, MoveStep.expunge], s3, true)) ∧
    (∀ s1, copy s = some s1 → mark s1 = none →
      moveMessage copy mark exp s = ([MoveStep.copy, MoveStep.markDeleted], s1, false)) ∧
    (∀ s1 s2, copy s = some s1 → mark s1 = some s2 → exp s2 = none →
      moveMessage copy mark exp s =
        ([MoveStep.copy, MoveStep.markDeleted, MoveStep.expunge], s2, false)) ∧
    (∀ uids : List Nat, uids ≠ [] →
      moveMessages uids copy mark exp s = moveMessage copy mark exp s) := by
  refine ⟨?_, ?_, ?_, ?_, ?_⟩
  · intro h; simp [moveMessage, h]
  · intro s1 s2 s3 h1 h2 h3; simp [moveMessage, h1, h2, h3]
  · intro s1 h1 h2; simp [moveMessage, h1, h2]
  · intro s1 s2 h1 h2 h3; simp [moveMessage, h1, h2, h3]
  · intro uids h
    have : uids.isEmpty = false := by
      cases uids with
      | nil => exact absurd rfl h
      | cons x xs => rfl
    simp [moveMessages, this]

/-- C5, witness: a copy failure on a concrete Nat-valued state, plus the
success path of a second instantiation. -/
theorem c5_witness :
    ((fun _ : Nat => (none : Option Nat)) 0 = none →
      moveMessage (fun _ : Nat => none) (fun n => some n) (fun n => some n) 0 =
        ([MoveStep.copy], 0, false)) ∧
    (∀ s1 s2 s3, (fun _ : Nat => (none : Option Nat)) 0 = some s1 →
      (fun n : Nat => some n) s1 = some s2 → (fun n : Nat => some n) s2 = some s3 →
      moveMessage (fun _ : Nat => none) (fun n => some n) (fun n => some n) 0 =
        ([MoveStep.copy, MoveStep.markDeleted, MoveStep.expunge], s3, true)) ∧
    (∀ s1, (fun _ : Nat => (none : Option Nat)) 0 = some s1 →
      (fun n : Nat => some n) s1 = none →
      moveMessage (fun _ : Nat => none) (fun n => some n) (fun n => some n) 0 =
        ([MoveStep.copy, MoveStep.markDeleted], s1, false)) ∧
    (∀ s1 s2, (fun _ : Nat => (none : Option Nat)) 0 = some s1 →
      (fun n : Nat => some n) s1 = some s2 → (fun n : Nat => some n) s2 = none →
      moveMessage (fun _ : Nat => none) (fun n => some n) (fun n => some n) 0 =
        ([MoveStep.copy, MoveStep.markDeleted, MoveStep.expunge], s2, false)) ∧
    (∀ uids : List Nat, uids ≠ [] →
      moveMessages uids (fun _ : Nat => none) (fun n => some n) (fun n => some n) 0 =
        moveMessage (fun _ : Nat => none) (fun n => some n) (fun n => some n) 0) :=
  c5_move_three_steps (fun _ : Nat => none) (fun n => some n) (fun n => some n) 0

/-- Embedding of models.Account. -/
structure Account where
  id : Int := 0
  name : Str := []
  server : Str := []
  port : Int := 0
  username : Str := []
  password : Str := []
  tls : Bool := false
  deriving Repr, DecidableEq

/-- Embedding of the PreviewRequest payload of the live-preview
protocol. -/
structure PreviewRequest where
  accountId : Int := 0
  folder : Str := []
  limit : Int := 0
  deriving Repr, DecidableEq

/-- One server-to-client event of the live-preview protocol: a progress
envelope, an error envelope, or the terminal result envelope. -/
inductive WSEvent where
  | progress (stage : Str) (current total : Nat) (message : Str) (messageData : Option Message)
  | error (e : Str)
  | result (res : PreviewResult)
  deriving Repr, DecidableEq

/-- Environment of one preview request: the store lookups and the IMAP
command outcomes the handler consumes.  getAccount is none both when the
row is missing (GetAccount returns nil, nil) and on a query error, since
the handler maps both to the same reply. -/
structure PreviewEnv where
  getAccount : Int → Option Account
  listRules : Int → Option (List Rule)
  connectResult : Except Str Unit
  selectFolder : Str → Except Str Nat
  fetchMessages : Int → Except Str (List Message)

/-- Decimal rendering of a Nat, modelling strconv.Itoa on the
nonnegative ints the handler prints. -/
def itoa (n : Nat) : Str :=
  if h : n < 10 then [Char.ofNat (48 + n)]
  else itoa (n / 10) ++ [Char.ofNat (48 + n % 10)]
  termination_by n
  decreasing_by exact Nat.div_lt_self (by omega) (by omega)

/-- The message as the handler leaves it after the rule loop: the first
enabled matching rule recorded, if any. -/
def processedMsg (rules : List Rule) (m : Message) : Message :=
  match firstMatchingRule m rules with
  | some r => { m with matchedRule := some r }
  | none => m

/-- The per-message progress events of the processing loop, carrying the
one-based index, the total, the printed text and the processed message. -/
def previewEventsFrom (rules : List Rule) (total : Nat) :
    Nat → List Message → List WSEvent
  | _, [] => []
  | i, m :: rest =>
    WSEvent.progress (str "processing") (i + 1) total
        (str "Processing message " ++ itoa (i + 1) ++ str " of " ++ itoa total)
        (some (processedMsg rules m)) ::
      previewEventsFrom rules total (i + 1) rest

/-- Embedding of WebSocketHandler.handlePreviewRequest
(internal/api/websocket.go) as the sequence of events written to the
connection for one parsed preview request.  Folder and limit defaults
are applied first; then the connecting progress event is sent
unconditionally; each failing lookup or command writes one error event
and returns; the success path emits the staged progress events, one
processing event per message, and the terminal result, whose payload is
the same computation as PreviewRules (the handler runs the identical
first-match loop). -/
def handlePreviewRequest (env : PreviewEnv) (req : PreviewRequest) : List WSEvent :=
  let folder := if req.folder.isEmpty then str "INBOX" else req.folder
  let limit : Int := if req.limit == 0 then 100 else req.limit
  WSEvent.progress (str "connecting") 0 0 (str "Connecting to IMAP server...") none ::
    match env.getAccount req.accountId with
    | none => [WSEvent.error (str "account not found")]
    | some _ =>
      match env.listRules req.accountId with
      | none => [WSEvent.error (str "failed to load rules")]
      | some rules =>
        match env.connectResult with
        | .error e => [WSEvent.error e]
        | .ok _ =>
          WSEvent.progress (str "connected") 0 0 (str "Connected successfully") none ::
            WSEvent.progress (str "selecting") 0 0
              (str "Selecting folder: " ++ folder) none ::
            match env.selectFolder folder with
            | .error e => [WSEvent.error e]
            | .ok totalMessages =>
              WSEvent.progress (str "fetching") 0 totalMessages
                  (str "Fetching messages...") none ::
                match env.fetchMessages limit with
                | .error e => [WSEvent.error e]
                | .ok messages =>
                  WSEvent.progress (str "processing") 0 messages.length
                      (str "Processing rules...") none ::
                    (previewEventsFrom rules messages.length 0 messages ++
                      [WSEvent.result (previewRules rules messages)])

/-- C7.  For every preview request whose account id has no stored
account, the handler emits exactly a progress event with stage
connecting followed by an error event with message account not found,
and nothing else. -/
theorem c7_account_not_found (env : PreviewEnv) (req : PreviewRequest)
    (h : env.getAccount req.accountId = none) :
    handlePreviewRequest env req =
      [WSEvent.progress (str "connecting") 0 0 (str "Connecting to IMAP server...") none,
       WSEvent.error (str "account not found")] := by
  simp [handlePreviewRequest, h]

/-- Environment for the C7 witness: an empty store and trivially
succeeding IMAP commands. -/
def c7env : PreviewEnv :=
  { getAccount := fun _ => none
    listRules := fun _ => some []
    connectResult := .ok ()
    selectFolder := fun _ => .ok 0
    fetchMessages := fun _ => .ok [] }

/-- C7, witness at a concrete request against the empty store. -/
theorem c7_witness :
    handlePreviewRequest c7env { accountId := 7 } =
      [WSEvent.progress (str "connecting") 0 0 (str "Connecting to IMAP server...") none,
       WSEvent.error (str "account not found")] :=
  c7_account_not_found c7env { accountId := 7 } rfl

theorem char_eq_of_toNat_eq {a b : Char} (h : a.toNat = b.toNat) : a = b :=
  Char.ext (UInt32.ext h)

theorem toNat_charOfNat (n : Nat) (h : n.isValidChar) : (Char.ofNat n).toNat = n := by
  rw [Char.ofNat, dif_pos h]
  simp [Char.ofNatAux, Char.toNat, UInt32.toNat, BitVec.toNat_ofNatLt]

theorem toNat_goToUpper (c : Char) :
    (goToUpper c).toNat = if 97 ≤ c.toNat ∧ c.toNat ≤ 122 then c.toNat - 32 else c.toNat := by
  rw [goToUpper]
  by_cases h : 97 ≤ c.toNat ∧ c.toNat ≤ 122
  · rw [if_pos h, if_pos h, toNat_charOfNat _ (Or.inl (by omega))]
  · rw [if_neg h, if_neg h]

theorem goToUpper_of_digit {c : Char} (h : isDigitCh c = true) : goToUpper c = c := by
  have h2 : 48 ≤ c.toNat ∧ c.toNat ≤ 57 := by simpa [isDigitCh] using h
  rw [goToUpper, if_neg (by omega)]

theorem nonspace_of_digit {c : Char} (h : isDigitCh c = true) : goIsSpace c = false := by
  have h2 : 48 ≤ c.toNat ∧ c.toNat ≤ 57 := by simpa [isDigitCh] using h
  simp only [goIsSpace, decide_eq_false_iff_not]
  omega

theorem source_toNat_of_goToUpper {c L : Char} (h : goToUpper c = L) :
    c.toNat = L.toNat ∨ c.toNat = L.toNat + 32 := by
  have h2 := toNat_goToUpper c
  rw [h] at h2
  by_cases h3 : 97 ≤ c.toNat ∧ c.toNat ≤ 122
  · rw [if_pos h3] at h2; right; omega
  · rw [if_neg h3] at h2; left; omega

theorem map_goToUpper_digits {ds : Str} (h : ∀ c ∈ ds, isDigitCh c = true) :
    ds.map goToUpper = ds := by
  induction ds with
  | nil => rfl
  | cons c t ih =>
    rw [List.map_cons, goToUpper_of_digit (h c (List.mem_cons_self ..)),
      ih (fun x hx => h x (List.mem_cons_of_mem _ hx))]

theorem dropWhile_append_all {p : Char → Bool} {a : Str} (h : ∀ c ∈ a, p c = true) (b : Str) :
    List.dropWhile p (a ++ b) = List.dropWhile p b := by
  induction a with
  | nil => rfl
  | cons c t ih =>
    rw [List.cons_append, List.dropWhile_cons, if_pos (by simp [h c (List.mem_cons_self ..)]),
      ih (fun x hx => h x (List.mem_cons_of_mem _ hx))]

theorem dropWhile_cons_false {p : Char → Bool} {c : Char} (h : p c = false) (t : Str) :
    List.dropWhile p (c :: t) = c :: t := by
  rw [List.dropWhile_cons, if_neg (by simp [h])]

theorem trimSpace_sandwich (ws1 ws2 mid : Str)
    (h1 : ∀ c ∈ ws1, goIsSpace c = true) (h2 : ∀ c ∈ ws2, goIsSpace c = true)
    (hh : ∃ c t, mid = c :: t ∧ goIsSpace c = false)
    (hl : ∃ c t, mid.reverse = c :: t ∧ goIsSpace c = false) :
    trimSpace (ws1 ++ mid ++ ws2) = mid := by
  obtain ⟨c, t, hct, hcs⟩ := hh
  obtain ⟨d, r, hdr, hds⟩ := hl
  rw [trimSpace, List.append_assoc, dropWhile_append_all h1]
  rw [hct, List.cons_append, dropWhile_cons_false hcs, ← List.cons_append, ← hct]
  rw [List.reverse_append, dropWhile_append_all (fun x hx => h2 x (List.mem_reverse.mp hx))]
  rw [hdr, dropWhile_cons_false hds, ← hdr, List.reverse_reverse]

theorem beginsWith_append (p t : Str) : beginsWith p (p ++ t) = true := by
  induction p with
  | nil => rfl
  | cons c q ih => simp [beginsWith, ih]

theorem endsWith_append (a b : Str) : endsWith (a ++ b) b = true := by
  rw [endsWith, List.reverse_append]
  exact beginsWith_append _ _

theorem removeSuffix_append (a b : Str) : removeSuffix (a ++ b) b = a := by
  rw [removeSuffix, if_pos (endsWith_append a b), List.reverse_append]
  rw [show b.length = b.reverse.length from (List.length_reverse _).symm,
    List.drop_left, List.reverse_reverse]

theorem beq_digit_false {a d : Char} (hd : isDigitCh d = true) (ha : 58 ≤ a.toNat) :
    (a == d) = false := by
  rw [beq_eq_false_iff_ne]
  intro he
  have h1 : 48 ≤ d.toNat ∧ d.toNat ≤ 57 := by simpa [isDigitCh] using hd
  rw [he] at ha
  omega

theorem trimSpace_digits (ds : Str) (hne : ds ≠ []) (hdig : ∀ c ∈ ds, isDigitCh c = true) :
    trimSpace ds = ds := by
  have hh : ∃ c t, ds = c :: t ∧ goIsSpace c = false := by
    cases ds with
    | nil => exact absurd rfl hne
    | cons c t =>
      exact ⟨c, t, rfl, nonspace_of_digit (hdig c (List.mem_cons_self ..))⟩
  have hl : ∃ c t, ds.reverse = c :: t ∧ goIsSpace c = false := by
    rcases hr : ds.reverse with _ | ⟨d, r⟩
    · exact absurd (by simpa using congrArg List.reverse hr) hne
    · refine ⟨d, r, rfl, nonspace_of_digit (hdig d ?_)⟩
      have hmem : d ∈ ds.reverse := by rw [hr]; exact List.mem_cons_self ..
      exact List.mem_reverse.mp hmem
  have h := trimSpace_sandwich [] [] ds (fun c hc => absurd hc (List.not_mem_nil c))
    (fun c hc => absurd hc (List.not_mem_nil c)) hh hl
  simpa using h

theorem parseUint32_digits (ds : Str) (hne : ds ≠ []) (hdig : ∀ c ∈ ds, isDigitCh c = true)
    (hval : digitsVal ds < 2 ^ 32) : parseUint32 ds = some (digitsVal ds) := by
  have h1 : ds.isEmpty = false := by
    cases ds with
    | nil => exact absurd rfl hne
    | cons c t => rfl
  have h2 : ds.all isDigitCh = true := List.all_eq_true.mpr hdig
  unfold parseUint32
  rw [if_neg (by simp [h1]), if_pos h2, if_pos hval]

theorem strGB_eq : str "GB" = ['G', 'B'] := rfl

theorem parseSize_unit_GB (s ds : Str) (hne : ds ≠ []) (hdig : ∀ c ∈ ds, isDigitCh c = true)
    (hval : digitsVal ds < 2 ^ 32)
    (h : (trimSpace s).map goToUpper = ds ++ str "GB") :
    parseSize s = some ((digitsVal ds * (1024 * 1024 * 1024)) % 2 ^ 32) := by
  have e1 : endsWith (ds ++ str "GB") (str "GB") = true := endsWith_append ds (str "GB")
  have e2 : removeSuffix (ds ++ str "GB") (str "GB") = ds := removeSuffix_append ds (str "GB")
  simp only [parseSize, h, e1, e2, if_true]
  rw [trimSpace_digits ds hne hdig, parseUint32_digits ds hne hdig hval]

theorem endsWith_MB_not_GB (ds : Str) : endsWith (ds ++ str "MB") (str "GB") = false := by
  unfold endsWith
  rw [List.reverse_append]
  show beginsWith ['B', 'G'] ('B' :: 'M' :: ds.reverse) = false
  have hgm : (('G' : Char) == 'M') = false := by decide
  simp [beginsWith, hgm]

theorem parseSize_unit_MB (s ds : Str) (hne : ds ≠ []) (hdig : ∀ c ∈ ds, isDigitCh c = true)
    (hval : digitsVal ds < 2 ^ 32)
    (h : (trimSpace s).map goToUpper = ds ++ str "MB") :
    parseSize s = some ((digitsVal ds * (1024 * 1024)) % 2 ^ 32) := by
  have e0 : endsWith (ds ++ str "MB") (str "GB") = false := endsWith_MB_not_GB ds
  have e1 : endsWith (ds ++ str "MB") (str "MB") = true := endsWith_append ds (str "MB")
  have e2 : removeSuffix (ds ++ str "MB") (str "MB") = ds := removeSuffix_append ds (str "MB")
  simp only [parseSize, h, e0, e1, e2, if_true, Bool.false_eq_true, if_false]
  rw [trimSpace_digits ds hne hdig, parseUint32_digits ds hne hdig hval]

theorem endsWith_KB_not_GB (ds : Str) : endsWith (ds ++ str "KB") (str "GB") = false := by
  unfold endsWith
  rw [List.reverse_append]
  show beginsWith ['B', 'G'] ('B' :: 'K' :: ds.reverse) = false
  have hgk : (('G' : Char) == 'K') = false := by decide
  simp [beginsWith, hgk]

theorem endsWith_KB_not_MB (ds : Str) : endsWith (ds ++ str "KB") (str "MB") = false := by
  unfold endsWith
  rw [List.reverse_append]
  show beginsWith ['B', 'M'] ('B' :: 'K' :: ds.reverse) = false
  have hmk : (('M' : Char) == 'K') = false := by decide
  simp [beginsWith, hmk]

theorem parseSize_unit_KB (s ds : Str) (hne : ds ≠ []) (hdig : ∀ c ∈ ds, isDigitCh c = true)
    (hval : digitsVal ds < 2 ^ 32)
    (h : (trimSpace s).map goToUpper = ds ++ str "KB") :
    parseSize s = some ((digitsVal ds * 1024) % 2 ^ 32) := by
  have e0 : endsWith (ds ++ str "KB") (str "GB") = false := endsWith_KB_not_GB ds
  have e1 : endsWith (ds ++ str "KB") (str "MB") = false := endsWith_KB_not_MB ds
  have e2 : endsWith (ds ++ str "KB") (str "KB") = true := endsWith_append ds (str "KB")
  have e3 : removeSuffix (ds ++ str "KB") (str "KB") = ds := removeSuffix_append ds (str "KB")
  simp only [parseSize, h, e0, e1, e2, e3, if_true, Bool.false_eq_true, if_false]
  rw [trimSpace_digits ds hne hdig, parseUint32_digits ds hne hdig hval]

theorem endsWith_B_not_GB (ds : Str) (d : Char) (r : Str) (hrev : ds.reverse = d :: r)
    (hd : isDigitCh d = true) : endsWith (ds ++ str "B") (str "GB") = false := by
  unfold endsWith
  rw [List.reverse_append, hrev]
  show beginsWith ['B', 'G'] ('B' :: d :: r) = false
  simp [beginsWith, beq_digit_false hd (by decide : 58 ≤ ('G' : Char).toNat)]

theorem endsWith_B_not_MB (ds : Str) (d : Char) (r : Str) (hrev : ds.reverse = d :: r)
    (hd : isDigitCh d = true) : endsWith (ds ++ str "B") (str "MB") = false := by
  unfold endsWith
  rw [List.reverse_append, hrev]
  show beginsWith ['B', 'M'] ('B' :: d :: r) = false
  simp [beginsWith, beq_digit_false hd (by decide : 58 ≤ ('M' : Char).toNat)]

theorem endsWith_B_not_KB (ds : Str) (d : Char) (r : Str) (hrev : ds.reverse = d :: r)
    (hd : isDigitCh d = true) : endsWith (ds ++ str "B") (str "KB") = false := by
  unfold endsWith
  rw [List.reverse_append, hrev]
  show beginsWith ['B', 'K'] ('B' :: d :: r) = false
  simp [beginsWith, beq_digit_false hd (by decide : 58 ≤ ('K' : Char).toNat)]

theorem parseSize_unit_B (s ds : Str) (hne : ds ≠ []) (hdig : ∀ c ∈ ds, isDigitCh c = true)
    (hval : digitsVal ds < 2 ^ 32)
    (h : (trimSpace s).map goToUpper = ds ++ str "B") :
    parseSize s = some ((digitsVal ds * 1) % 2 ^ 32) := by
  obtain ⟨d, r, hrev, hd⟩ : ∃ d r, ds.reverse = d :: r ∧ isDigitCh d = true := by
    rcases hr : ds.reverse with _ | ⟨d, r⟩
    · exact absurd (by simpa using congrArg List.reverse hr) hne
    · refine ⟨d, r, rfl, hdig d ?_⟩
      have hmem : d ∈ ds.reverse := by rw [hr]; exact List.mem_cons_self ..
      exact List.mem_reverse.mp hmem
  have e0 : endsWith (ds ++ str "B") (str "GB") = false := endsWith_B_not_GB ds d r hrev hd
  have e1 : endsWith (ds ++ str "B") (str "MB") = false := endsWith_B_not_MB ds d r hrev hd
  have e2 : endsWith (ds ++ str "B") (str "KB") = false := endsWith_B_not_KB ds d r hrev hd
  have e3 : endsWith (ds ++ str "B") (str "B") = true := endsWith_append ds (str "B")
  have e4 : removeSuffix (ds ++ str "B") (str "B") = ds := removeSuffix_append ds (str "B")
  simp only [parseSize, h, e0, e1, e2, e3, e4, if_true, Bool.false_eq_true, if_false]
  rw [trimSpace_digits ds hne hdig, parseUint32_digits ds hne hdig hval]

theorem endsWith_digits_false (ds : Str) (d : Char) (r : Str) (hrev : ds.reverse = d :: r)
    (hd : isDigitCh d = true) :
    endsWith ds (str "GB") = false ∧ endsWith ds (str "MB") = false ∧
      endsWith ds (str "KB") = false ∧ endsWith ds (str "B") = false := by
  have hb := beq_digit_false hd (by decide : 58 ≤ ('B' : Char).toNat)
  refine ⟨?_, ?_, ?_, ?_⟩ <;>
    (unfold endsWith; rw [hrev])
  · show beginsWith ['B', 'G'] (d :: r) = false
    simp [beginsWith, hb]
  · show beginsWith ['B', 'M'] (d :: r) = false
    simp [beginsWith, hb]
  · show beginsWith ['B', 'K'] (d :: r) = false
    simp [beginsWith, hb]
  · show beginsWith ['B'] (d :: r) = false
    simp [beginsWith, hb]

theorem parseSize_unit_none (s ds : Str) (hne : ds ≠ []) (hdig : ∀ c ∈ ds, isDigitCh c = true)
    (hval : digitsVal ds < 2 ^ 32)
    (h : (trimSpace s).map goToUpper = ds) :
    parseSize s = some ((digitsVal ds * 1) % 2 ^ 32) := by
  obtain ⟨d, r, hrev, hd⟩ : ∃ d r, ds.reverse = d :: r ∧ isDigitCh d = true := by
    rcases hr : ds.reverse with _ | ⟨d, r⟩
    · exact absurd (by simpa using congrArg List.reverse hr) hne
    · refine ⟨d, r, rfl, hdig d ?_⟩
      have hmem : d ∈ ds.reverse := by rw [hr]; exact List.mem_cons_self ..
      exact List.mem_reverse.mp hmem
  obtain ⟨e0, e1, e2, e3⟩ := endsWith_digits_false ds d r hrev hd
  simp only [parseSize, h, e0, e1, e2, e3, Bool.false_eq_true, if_false]
  rw [trimSpace_digits ds hne hdig, parseUint32_digits ds hne hdig hval]

/-- The multiplier parseSize associates with each recognized unit
suffix of the uppercased input (the empty suffix meaning plain bytes);
none for any other trailing text. -/
def unitMult (uu : Str) : Option Nat :=
  if uu == str "GB" then some (1024 * 1024 * 1024)
  else if uu == str "MB" then some (1024 * 1024)
  else if uu == str "KB" then some 1024
  else if uu == str "B" then some 1
  else if uu == ([] : Str) then some 1
  else none

theorem nonspace_of_goToUpper_letter {c L : Char} (h : goToUpper c = L)
    (h58 : 58 ≤ L.toNat) (h90 : L.toNat ≤ 90) : goIsSpace c = false := by
  rcases source_toNat_of_goToUpper h with h3 | h3 <;>
    (simp only [goIsSpace, decide_eq_false_iff_not]; omega)

theorem trimSpace_num_unit (ws1 ws2 ds u : Str)
    (hws1 : ∀ c ∈ ws1, goIsSpace c = true) (hws2 : ∀ c ∈ ws2, goIsSpace c = true)
    (hne : ds ≠ []) (hdig : ∀ c ∈ ds, isDigitCh c = true)
    (huns : ∀ c ∈ u, goIsSpace c = false) :
    trimSpace (ws1 ++ (ds ++ u) ++ ws2) = ds ++ u := by
  apply trimSpace_sandwich ws1 ws2 _ hws1 hws2
  · cases ds with
    | nil => exact absurd rfl hne
    | cons c t =>
      exact ⟨c, t ++ u, by simp, nonspace_of_digit (hdig c (List.mem_cons_self ..))⟩
  · rw [List.reverse_append]
    rcases hur : u.reverse with _ | ⟨e, w⟩
    · rcases hr : ds.reverse with _ | ⟨d, r⟩
      · exact absurd (by simpa using congrArg List.reverse hr) hne
      · refine ⟨d, r, by simp, nonspace_of_digit (hdig d ?_)⟩
        have hmem : d ∈ ds.reverse := by rw [hr]; exact List.mem_cons_self ..
        exact List.mem_reverse.mp hmem
    · refine ⟨e, w ++ ds.reverse, by simp, huns e ?_⟩
      have hmem : e ∈ u.reverse := by rw [hur]; exact List.mem_cons_self ..
      exact List.mem_reverse.mp hmem

/-- C9.  parseSize accepts a decimal value with an optional B, KB, MB or
GB suffix, case-insensitively and with surrounding whitespace, and
returns the value times the unit multiplier computed in unsigned 32-bit
arithmetic, i.e. the product modulo 2 ^ 32; consequently parseable
inputs can wrap: 4GB (in either case) parses to threshold 0, silently
changing which messages the size predicate matches. -/
theorem c9_parseSize_uint32_wrap (ws1 ws2 ds u : Str) (m : Nat)
    (hws1 : ∀ c ∈ ws1, goIsSpace c = true) (hws2 : ∀ c ∈ ws2, goIsSpace c = true)
    (hne : ds ≠ []) (hdig : ∀ c ∈ ds, isDigitCh c = true)
    (hval : digitsVal ds < 2 ^ 32)
    (hu : unitMult (u.map goToUpper) = some m) :
    parseSize (ws1 ++ (ds ++ u) ++ ws2) = some ((digitsVal ds * m) % 2 ^ 32) ∧
    parseSize (str "4GB") = some 0 ∧ parseSize (str "4gb") = some 0 := by
  refine ⟨?_, by decide, by decide⟩
  unfold unitMult at hu
  by_cases h1 : (u.map goToUpper == str "GB") = true
  · rw [if_pos h1] at hu
    have hU : u.map goToUpper = str "GB" := by simpa using h1
    obtain rfl : m = 1024 * 1024 * 1024 := (Option.some.inj hu).symm
    have huns : ∀ c ∈ u, goIsSpace c = false := by
      intro c hc
      have hm2 : goToUpper c ∈ (['G', 'B'] : Str) := by
        rw [show (['G', 'B'] : Str) = str "GB" from rfl, ← hU]
        exact List.mem_map_of_mem _ hc
      simp only [List.mem_cons, List.mem_singleton, List.not_mem_nil, or_false] at hm2
      rcases hm2 with h2 | h2
      · exact nonspace_of_goToUpper_letter h2 (by decide) (by decide)
      · exact nonspace_of_goToUpper_letter h2 (by decide) (by decide)
    have htrim := trimSpace_num_unit ws1 ws2 ds u hws1 hws2 hne hdig huns
    have hupper : (ds ++ u).map goToUpper = ds ++ str "GB" := by
      rw [List.map_append, map_goToUpper_digits hdig, hU]
    exact parseSize_unit_GB _ ds hne hdig hval (by rw [htrim, hupper])
  · rw [if_neg h1] at hu
    by_cases h2 : (u.map goToUpper == str "MB") = true
    · rw [if_pos h2] at hu
      have hU : u.map goToUpper = str "MB" := by simpa using h2
      obtain rfl : m = 1024 * 1024 := (Option.some.inj hu).symm
      have huns : ∀ c ∈ u, goIsSpace c = false := by
        intro c hc
        have hm2 : goToUpper c ∈ (['M', 'B'] : Str) := by
          rw [show (['M', 'B'] : Str) = str "MB" from rfl, ← hU]
          exact List.mem_map_of_mem _ hc
        simp only [List.mem_cons, List.mem_singleton, List.not_mem_nil, or_false] at hm2
        rcases hm2 with h3 | h3
        · exact nonspace_of_goToUpper_letter h3 (by decide) (by decide)
        · exact nonspace_of_goToUpper_letter h3 (by decide) (by decide)
      have htrim := trimSpace_num_unit ws1 ws2 ds u hws1 hws2 hne hdig huns
      have hupper : (ds ++ u).map goToUpper = ds ++ str "MB" := by
        rw [List.map_append, map_goToUpper_digits hdig, hU]
      exact parseSize_unit_MB _ ds hne hdig hval (by rw [htrim, hupper])
    · rw [if_neg h2] at hu
      by_cases h3 : (u.map goToUpper == str "KB") = true
      · rw [if_pos h3] at hu
        have hU : u.map goToUpper = str "KB" := by simpa using h3
        obtain rfl : m = 1024 := (Option.some.inj hu).symm
        have huns : ∀ c ∈ u, goIsSpace c = false := by
          intro c hc
          have hm2 : goToUpper c ∈ (['K', 'B'] : Str) := by
            rw [show (['K', 'B'] : Str) = str "KB" from rfl, ← hU]
            exact List.mem_map_of_mem _ hc
          simp only [List.mem_cons, List.mem_singleton, List.not_mem_nil, or_false] at hm2
          rcases hm2 with h4 | h4
          · exact nonspace_of_goToUpper_letter h4 (by decide) (by decide)
          · exact nonspace_of_goToUpper_letter h4 (by decide) (by decide)
        have htrim := trimSpace_num_unit ws1 ws2 ds u hws1 hws2 hne hdig huns
        have hupper : (ds ++ u).map goToUpper = ds ++ str "KB" := by
          rw [List.map_append, map_goToUpper_digits hdig, hU]
        exact parseSize_unit_KB _ ds hne hdig hval (by rw [htrim, hupper])
      · rw [if_neg h3] at hu
        by_cases h4 : (u.map goToUpper == str "B") = true
        · rw [if_pos h4] at hu
          have hU : u.map goToUpper = str "B" := by simpa using h4
          obtain rfl : m = 1 := (Option.some.inj hu).symm
          have huns : ∀ c ∈ u, goIsSpace c = false := by
            intro c hc
            have hm2 : goToUpper c ∈ (['B'] : Str) := by
              rw [show (['B'] : Str) = str "B" from rfl, ← hU]
              exact List.mem_map_of_mem _ hc
            simp only [List.mem_singleton] at hm2
            exact nonspace_of_goToUpper_letter hm2 (by decide) (by decide)
          have htrim := trimSpace_num_unit ws1 ws2 ds u hws1 hws2 hne hdig huns
          have hupper : (ds ++ u).map goToUpper = ds ++ str "B" := by
            rw [List.map_append, map_goToUpper_digits hdig, hU]
          exact parseSize_unit_B _ ds hne hdig hval (by rw [htrim, hupper])
        · rw [if_neg h4] at hu
          by_cases h5 : (u.map goToUpper == ([] : Str)) = true
          · rw [if_pos h5] at hu
            obtain rfl : m = 1 := (Option.some.inj hu).symm
            have hU : u.map goToUpper = [] := by simpa using h5
            have hu0 : u = [] := by
              cases u with
              | nil => rfl
              | cons c t => simp at hU
            subst hu0
            have htrim := trimSpace_num_unit ws1 ws2 ds [] hws1 hws2 hne hdig
              (by intro c hc; cases hc)
            have hupper : (ds ++ ([] : Str)).map goToUpper = ds := by
              rw [List.append_nil, map_goToUpper_digits hdig]
            have := parseSize_unit_none (ws1 ++ (ds ++ []) ++ ws2) ds hne hdig hval
              (by rw [htrim, hupper])
            simpa using this
          · rw [if_neg h5] at hu
            cases hu

/-- C9, witness: the spaced, mixed-case input consisting of the digit 4
and the suffix gB parses to (4 * 2 ^ 30) mod 2 ^ 32 = 0. -/
theorem c9_witness :
    parseSize (str " " ++ (str "4" ++ str "gB") ++ str " ") =
      some ((digitsVal (str "4") * (1024 * 1024 * 1024)) % 2 ^ 32) ∧
    parseSize (str "4GB") = some 0 ∧ parseSize (str "4gb") = some 0 :=
  c9_parseSize_uint32_wrap (str " ") (str " ") (str "4") (str "gB") (1024 * 1024 * 1024)
    (by decide) (by decide) (by decide) (by decide) (by decide) (by decide)

end Mailcleaner
